import Mathlib

/-!
Verification of the minimum-edit-distance and BPE-trainer algorithms.

This file gives a shallow embedding of the two algorithms implemented in the
repository's chapter-2 notebooks and proves the specification's claims about
them.

* `min_edit_distance` (notebook `chapter_02_edit_distance.ipynb`): the
  dynamic-programming weighted edit distance.  The Python code prepends a `'#'`
  sentinel to both strings, allocates an `(n, m)` zero table, fills column 0,
  row 0 and then the interior cells in row-major order, and finally wraps the
  table in a DataFrame for display (the display layer is out of scope here;
  the distance is the bottom-right cell of the table).  The embedding models
  Python strings as `List Char`, numbers as `ℤ`, and the mutable numpy array
  as a function `ℕ → ℕ → ℤ` threaded through `List.foldl` in exactly the
  order of the Python loops.

* `bpe_tokenizer` (notebook `Chapter_02_words_and_tokens.ipynb`): the
  byte-pair-encoding trainer.  Symbols are Python strings (`String`); a key
  of the token-frequency dictionary is stored space-joined in Python and
  re-split at every use, which is modelled as `List String` (join and split
  are mutually inverse for the space-free symbols arising here); dictionaries
  are modelled as insertion-ordered association lists, matching Python's
  dictionary iteration order, which the tie-break behaviour of
  `max(pairs, key=pairs.get)` depends on.
-/

namespace NlpVerify

/-! ## Edit distance: embedding of the notebook code -/

/-- Embedding of `substitution_logic(source_letter, target_letter, cost)`. -/
def substitution_logic (source_letter target_letter : Char) (cost : ℤ) : ℤ :=
  if source_letter = target_letter then 0 else cost

/-- A single assignment `table[i, j] = v` on the table modelled as a function. -/
def writeCell (t : ℕ → ℕ → ℤ) (i j : ℕ) (v : ℤ) : ℕ → ℕ → ℤ :=
  fun a b => if a = i ∧ b = j then v else t a b

/-- Body of `for row in range(1, n): table[row, 0] = table[row-1, 0] + delete_cost`. -/
def emdRowStep (delete_cost : ℤ) (t : ℕ → ℕ → ℤ) (row : ℕ) : ℕ → ℕ → ℤ :=
  writeCell t row 0 (t (row - 1) 0 + delete_cost)

/-- Body of `for col in range(1, m): table[0, col] = table[0, col-1] + insert_cost`. -/
def emdColStep (insert_cost : ℤ) (t : ℕ → ℕ → ℤ) (col : ℕ) : ℕ → ℕ → ℤ :=
  writeCell t 0 col (t 0 (col - 1) + insert_cost)

/-- Body of the interior loop
`table[row, col] = min(table[row-1,col] + delete_cost,
                       table[row-1,col-1] + substitution_logic(source[row], target[col], substitute_cost),
                       table[row,col-1] + insert_cost)`;
`sourceP`/`targetP` are the `'#'`-prepended sequences, indexed as in Python. -/
def emdCellStep (sourceP targetP : List Char) (insert_cost delete_cost substitute_cost : ℤ)
    (t : ℕ → ℕ → ℤ) (rc : ℕ × ℕ) : ℕ → ℕ → ℤ :=
  writeCell t rc.1 rc.2
    (min (t (rc.1 - 1) rc.2 + delete_cost)
      (min (t (rc.1 - 1) (rc.2 - 1) +
              substitution_logic (sourceP.getD rc.1 '#') (targetP.getD rc.2 '#') substitute_cost)
           (t rc.1 (rc.2 - 1) + insert_cost)))

/-- The filled cost table of `min_edit_distance(source, target, ...)` as a function on
indices.  `source`/`target` are prepended with `'#'`, so the table has
`source.length + 1` rows and `target.length + 1` columns; `np.zeros` initialises
every cell to `0`; the three loops then run exactly as in the notebook
(`itertools.product(range(1, n), range(1, m))` enumerates the interior cells in
row-major order). -/
def min_edit_distance_fun (source target : List Char)
    (insert_cost delete_cost substitute_cost : ℤ) : ℕ → ℕ → ℤ :=
  let sourceP := '#' :: source
  let targetP := '#' :: target
  let n := sourceP.length
  let m := targetP.length
  let t0 : ℕ → ℕ → ℤ := fun _ _ => 0
  let t1 := (List.range' 1 (n - 1)).foldl (emdRowStep delete_cost) t0
  let t2 := (List.range' 1 (m - 1)).foldl (emdColStep insert_cost) t1
  ((List.range' 1 (n - 1)).flatMap fun r => (List.range' 1 (m - 1)).map fun c => (r, c)).foldl
    (emdCellStep sourceP targetP insert_cost delete_cost substitute_cost) t2

/-- The result of `min_edit_distance`: the distance (the bottom-right cell of the
table) together with the `(source.length + 1) × (target.length + 1)` cost table
(the notebook displays the same table as a DataFrame). -/
def min_edit_distance (source target : List Char)
    (insert_cost delete_cost substitute_cost : ℤ) : ℤ × List (List ℤ) :=
  let tb := min_edit_distance_fun source target insert_cost delete_cost substitute_cost
  (tb source.length target.length,
    (List.range (source.length + 1)).map fun i =>
      (List.range (target.length + 1)).map fun j => tb i j)

/-! ### Reference recursive form of the edit distance

`ced` computes the same weighted edit distance by structural recursion on the
two sequences, peeling symbols from the front.  The prefix-indexed DP table is
related to `ced` through reversed prefixes (`edPrefix`). -/

/-- Weighted edit distance of two empty-source sequences: inserting every symbol. -/
def cedNil (insert_cost : ℤ) : List Char → ℤ
  | [] => 0
  | _ :: v => cedNil insert_cost v + insert_cost

/-- Inner recursion of `ced` for a fixed head symbol `x` of the source, where
`f` computes the distance from the source's tail. -/
def cedCons (insert_cost delete_cost substitute_cost : ℤ) (x : Char)
    (f : List Char → ℤ) : List Char → ℤ
  | [] => f [] + delete_cost
  | y :: v =>
    min (f (y :: v) + delete_cost)
      (min (f v + substitution_logic x y substitute_cost)
        (cedCons insert_cost delete_cost substitute_cost x f v + insert_cost))

/-- Recursive weighted edit distance (reference definition used in proofs). -/
def ced (insert_cost delete_cost substitute_cost : ℤ) : List Char → List Char → ℤ
  | [] => cedNil insert_cost
  | x :: u => cedCons insert_cost delete_cost substitute_cost x
      (ced insert_cost delete_cost substitute_cost u)

/-- Distance between reversed prefixes: the value the DP table holds at `(i, j)`. -/
def edPrefix (source target : List Char) (ic dc sc : ℤ) (i j : ℕ) : ℤ :=
  ced ic dc sc ((source.take i).reverse) ((target.take j).reverse)

/-- Value of the table after the two initialisation loops (row 0 and column 0). -/
def emdInitVal (ic dc : ℤ) (ls lt : ℕ) (i j : ℕ) : ℤ :=
  if i = 0 ∧ 1 ≤ j ∧ j ≤ lt then (j : ℤ) * ic
  else if j = 0 ∧ 1 ≤ i ∧ i ≤ ls then (i : ℤ) * dc
  else 0

/-! ### Edit scripts

A single edit operation rewrites a sequence at an arbitrary position: it
inserts one symbol, deletes one symbol, or substitutes one symbol, with the
corresponding cost.  `Steps u v c` holds when some finite sequence of such
operations transforms `u` into `v` at total cost `c`.  The spec's guarantee is
that the DP distance is the minimum such `c`. -/

/-- One single-symbol edit operation and its cost. -/
inductive OneEdit (ic dc sc : ℤ) : List Char → List Char → ℤ → Prop
  | insert (l r : List Char) (a : Char) : OneEdit ic dc sc (l ++ r) (l ++ a :: r) ic
  | delete (l r : List Char) (a : Char) : OneEdit ic dc sc (l ++ a :: r) (l ++ r) dc
  | subst (l r : List Char) (a b : Char) : OneEdit ic dc sc (l ++ a :: r) (l ++ b :: r) sc

/-- A finite sequence of single-symbol edits with its total cost. -/
inductive Steps (ic dc sc : ℤ) : List Char → List Char → ℤ → Prop
  | refl (u : List Char) : Steps ic dc sc u u 0
  | tail {u v w : List Char} {c k : ℤ} :
      Steps ic dc sc u v c → OneEdit ic dc sc v w k → Steps ic dc sc u w (c + k)

/-! ## BPE trainer: embedding of the `bpe_tokenizer` class

Symbols are Python strings (`String`).  A key of `token_counts` is modelled as
its list of symbols (Python stores it space-joined and re-splits it at every
use; the two representations are mutually inverse for the space-free, nonempty
symbols occurring here).  `token_counts` and the ephemeral `pairs` mapping are
insertion-ordered association lists, reproducing Python dictionary iteration
order.  The vocabulary is the list `self.vocab`; it is only ever used through
membership tests and appends, so the arbitrary iteration order of the Python
`set` used by `initialize_vocab` is irrelevant (the embedding fixes
first-occurrence order). -/

/-- Embedding of `Counter` accumulation of raw-token counts: counts in
first-occurrence order (`count_tokens` builds its `Counter` this way before
the keys are turned into BPE-style keys). -/
def count_raw (corpus : List (List Char)) : List (List Char × ℕ) :=
  corpus.foldl (fun acc w =>
    if acc.any (fun kv => kv.1 = w) then
      acc.map (fun kv => if kv.1 = w then (kv.1, kv.2 + 1) else kv)
    else acc ++ [(w, 1)]) []

/-- Embedding of `make_bpe_style_tokens` on one raw token: its characters as
one-character symbols, followed by the end-of-word marker `'</W>'`. -/
def bpe_make_key (w : List Char) : List String :=
  (w.map fun c => String.mk [c]) ++ ["</W>"]

/-- Embedding of `initialize_vocab`: all symbols occurring in the keys of
`token_counts`.  The Python code collects them in a `set` and lists it in
arbitrary order; since the vocabulary is only used through membership tests,
the embedding fixes first-occurrence order. -/
def initialize_vocab (token_counts : List (List String × ℕ)) : List String :=
  token_counts.foldl (fun v kv =>
    kv.1.foldl (fun v s => if s ∈ v then v else v ++ [s]) v) []

/-- The adjacent symbol pairs of one key, left to right. -/
def key_pairs (k : List String) : List (String × String) := k.zip k.tail

/-- One `pairs[characters[index], characters[index+1]] += value` update of the
`defaultdict(int)`: an existing key keeps its position, a new key is appended
(Python dictionaries preserve insertion order). -/
def add_pair (ps : List ((String × String) × ℕ)) (p : String × String) (v : ℕ) :
    List ((String × String) × ℕ) :=
  if ps.any (fun q => q.1 = p) then
    ps.map (fun q => if q.1 = p then (q.1, q.2 + v) else q)
  else ps ++ [(p, v)]

/-- The `pairs` dictionary of `find_most_common_pair`: every adjacent pair of
every key, weighted by the key's count, accumulated in scan order. -/
def build_pairs (token_counts : List (List String × ℕ)) :
    List ((String × String) × ℕ) :=
  token_counts.foldl
    (fun ps kv => (key_pairs kv.1).foldl (fun ps p => add_pair ps p kv.2) ps) []

/-- Embedding of `max(pairs, key=pairs.get)`: the first key (in insertion
order) holding the maximum value; `None` models the `ValueError` that Python's
`max` raises on an empty dictionary. -/
def python_max (ps : List ((String × String) × ℕ)) : Option (String × String) :=
  match ps with
  | [] => none
  | q :: rest => some (rest.foldl (fun best q' => if best.2 < q'.2 then q' else best) q).1

/-- Embedding of `find_most_common_pair`. -/
def find_most_common_pair (token_counts : List (List String × ℕ)) :
    Option (String × String) :=
  python_max (build_pairs token_counts)

/-- Embedding of the `while` loop inside `modify_tokens`: scan left to right;
whenever the concatenation of the two leading symbols is in the vocabulary,
emit the concatenation and drop both symbols, otherwise emit the first symbol
and continue with the rest. -/
def merge_characters (vocab : List String) : List String → List String
  | [] => []
  | [c] => [c]
  | c1 :: c2 :: rest =>
    if c1 ++ c2 ∈ vocab then (c1 ++ c2) :: merge_characters vocab rest
    else c1 :: merge_characters vocab (c2 :: rest)

/-- Embedding of `modify_tokens`: rewrite every key, preserving its count.
(The Python method receives the newly merged symbol as an argument but never
uses it: the scan matches against the whole current vocabulary.  The rebuilt
dictionary is modelled by mapping over the association list: the scan
preserves each key's symbol concatenation, so keys with distinct underlying
words never collide.) -/
def modify_tokens (vocab : List String) (token_counts : List (List String × ℕ)) :
    List (List String × ℕ) :=
  token_counts.map fun kv => (merge_characters vocab kv.1, kv.2)

/-- The mutable state of a `bpe_tokenizer` instance: the evolving token
frequencies and vocabulary. -/
structure BPEState where
  token_counts : List (List String × ℕ)
  vocab : List String
deriving DecidableEq

/-- One iteration of the `merge` loop: select the most common pair, append its
concatenation to the vocabulary (`modify_vocab`), then rewrite the keys
(`modify_tokens`).  `none` models the `ValueError` escaping from
`find_most_common_pair` when no pair exists. -/
def bpe_step (s : BPEState) : Option ((String × String) × BPEState) :=
  match find_most_common_pair s.token_counts with
  | none => none
  | some p =>
    some (p, ⟨modify_tokens (s.vocab ++ [p.1 ++ p.2]) s.token_counts,
      s.vocab ++ [p.1 ++ p.2]⟩)

/-- Embedding of `merge(n)`: run `n` iterations, propagating failure. -/
def bpe_merge : ℕ → BPEState → Option BPEState
  | 0, s => some s
  | n + 1, s =>
    match bpe_step s with
    | none => none
    | some ps => bpe_merge n ps.2

/-- The sequence of pairs selected by the first `n` iterations of `merge`
(cut short if an iteration fails). -/
def bpe_trace : ℕ → BPEState → List (String × String)
  | 0, _ => []
  | n + 1, s =>
    match bpe_step s with
    | none => []
    | some ps => ps.1 :: bpe_trace n ps.2

/-- Embedding of `bpe_tokenizer.__init__` from the list of raw tokens of the
corpus (the spaCy whitespace tokenisation that produces the raw tokens is an
external collaborator): count raw tokens, turn them into BPE-style keys and
seed the vocabulary. -/
def bpe_init (corpus : List (List Char)) : BPEState :=
  ⟨(count_raw corpus).map fun wc => (bpe_make_key wc.1, wc.2),
    initialize_vocab ((count_raw corpus).map fun wc => (bpe_make_key wc.1, wc.2))⟩

/-- Modelled from the spec: the merge-step rewrite as §4.2 words it —
"rewrite every key … replacing every non-overlapping adjacent occurrence of
literal `a` followed by `b` with `ab` (greedy, leftmost-first,
non-overlapping)".  Used to compare the code's `merge_characters` against the
spec's description. -/
def spec_replace_pair (a b : String) : List String → List String
  | [] => []
  | [c] => [c]
  | c1 :: c2 :: rest =>
    if c1 = a ∧ c2 = b then (a ++ b) :: spec_replace_pair a b rest
    else c1 :: spec_replace_pair a b (c2 :: rest)

/-- The trainer states reachable from some corpus by successful merge steps. -/
inductive Reachable : BPEState → Prop
  | init (corpus : List (List Char)) : Reachable (bpe_init corpus)
  | step {s : BPEState} {p : String × String} {s' : BPEState} :
      Reachable s → bpe_step s = some (p, s') → Reachable s'

/-! ### Concrete corpora

`c2corpus` drives the three merge steps on which `modify_tokens` departs from
replace-exactly-the-selected-pair; `c6corpus` is the textbook example. -/

/-- A raw-token corpus (realisable through the whitespace tokenizer):
`x</y` nine times, `W>` ten times, `p</W>q` once. -/
def c2corpus : List (List Char) :=
  (List.replicate 9 "x</y" ++ List.replicate 10 "W>" ++ ["p</W>q"]).map String.toList

/-- The trainer state after two merge steps on `c2corpus`: the first step
merged `("W", ">")`, the second `("<", "/")`. -/
def c2state2 : BPEState :=
  ⟨[(["x", "</", "y", "</W>"], 9), (["W>", "</W>"], 10),
      (["p", "</", "W>", "q", "</W>"], 1)],
    ["x", "<", "/", "y", "</W>", "W", ">", "p", "q", "W>", "</"]⟩

/-- The raw tokens of the textbook corpus, with multiplicities as in the
notebook cell building `example_text`. -/
def c6corpus : List (List Char) :=
  (List.replicate 5 "low" ++ List.replicate 2 "lowest" ++ List.replicate 6 "newer" ++
    List.replicate 3 "wider" ++ List.replicate 2 "new").map String.toList

/-! ### The scan order and aggregate weights behind `find_most_common_pair`

The pairs dictionary is built by one left-to-right scan over the keys in
insertion order; `pair_stream` is that scan as a flat list, `pair_weight` the
aggregate weighted count of one pair.  The dictionary holds the pairs in
first-encounter order with their aggregate weights (`firstOcc`,
`stream_weight`), and Python's `max` keeps the first maximal entry in that
order. -/

/-- All adjacent pairs in scan order: keys in dictionary insertion order,
positions left to right. -/
def pair_stream (token_counts : List (List String × ℕ)) : List (String × String) :=
  token_counts.flatMap fun kv => key_pairs kv.1

/-- The aggregate weighted count of a pair: each occurrence in a key
contributes that key's frequency. -/
def pair_weight (token_counts : List (List String × ℕ)) (q : String × String) : ℕ :=
  (token_counts.map fun kv => kv.2 * (key_pairs kv.1).count q).sum

/-- The scan with each occurrence tagged by its key's frequency. -/
def wstream (token_counts : List (List String × ℕ)) :
    List ((String × String) × ℕ) :=
  token_counts.flatMap fun kv => (key_pairs kv.1).map fun p => (p, kv.2)

/-- First-occurrence order of a list of pairs. -/
def firstOcc (l : List (String × String)) : List (String × String) :=
  l.foldl (fun acc p => if p ∈ acc then acc else acc ++ [p]) []

/-- Total weight of one pair along a tagged scan. -/
def stream_weight (q : String × String) (T : List ((String × String) × ℕ)) : ℕ :=
  ((T.filter fun pv => pv.1 = q).map Prod.snd).sum

/-! ## Theorems: the edit-distance table

Equations of the reference distance, characterisation of the three
initialisation/fill loops, and the identification of every table cell with the
reversed-prefix distance. -/

theorem ced_nil_nil (ic dc sc : ℤ) : ced ic dc sc [] [] = 0 := rfl

theorem ced_nil_cons (ic dc sc : ℤ) (y : Char) (v : List Char) :
    ced ic dc sc [] (y :: v) = ced ic dc sc [] v + ic := rfl

theorem ced_cons_nil (ic dc sc : ℤ) (x : Char) (u : List Char) :
    ced ic dc sc (x :: u) [] = ced ic dc sc u [] + dc := rfl

theorem ced_cons_cons (ic dc sc : ℤ) (x y : Char) (u v : List Char) :
    ced ic dc sc (x :: u) (y :: v) =
      min (ced ic dc sc u (y :: v) + dc)
        (min (ced ic dc sc u v + substitution_logic x y sc)
          (ced ic dc sc (x :: u) v + ic)) := rfl

theorem ced_nil_left (ic dc sc : ℤ) (v : List Char) :
    ced ic dc sc [] v = (v.length : ℤ) * ic := by
  induction v with
  | nil => simp [ced_nil_nil]
  | cons y v ih => rw [ced_nil_cons, ih, List.length_cons]; push_cast; ring

theorem ced_nil_right (ic dc sc : ℤ) (u : List Char) :
    ced ic dc sc u [] = (u.length : ℤ) * dc := by
  induction u with
  | nil => simp [ced_nil_nil]
  | cons x u ih => rw [ced_cons_nil, ih, List.length_cons]; push_cast; ring

theorem take_reverse_succ (l : List Char) (i : ℕ) (h : i < l.length) (d : Char) :
    (l.take (i + 1)).reverse = l.getD i d :: (l.take i).reverse := by
  rw [List.take_succ, List.reverse_append]
  have h1 : l[i]? = some l[i] := List.getElem?_eq_getElem h
  have h2 : l.getD i d = l[i] := by
    simp [List.getD_eq_getElem?_getD, h1]
  simp [h1, h2]

theorem edPrefix_left_zero (s t : List Char) (ic dc sc : ℤ) (j : ℕ) (hj : j ≤ t.length) :
    edPrefix s t ic dc sc 0 j = (j : ℤ) * ic := by
  rw [edPrefix, List.take_zero, List.reverse_nil, ced_nil_left]
  congr 1
  simp [List.length_take]
  omega

theorem edPrefix_right_zero (s t : List Char) (ic dc sc : ℤ) (i : ℕ) (hi : i ≤ s.length) :
    edPrefix s t ic dc sc i 0 = (i : ℤ) * dc := by
  rw [edPrefix, List.take_zero, List.reverse_nil, ced_nil_right]
  congr 1
  simp [List.length_take]
  omega

/-- The DP recurrence for the reversed-prefix distance: exactly the value the
interior loop writes into cell `(i + 1, j + 1)`. -/
theorem edPrefix_succ_succ (s t : List Char) (ic dc sc : ℤ) (i j : ℕ)
    (hi : i < s.length) (hj : j < t.length) :
    edPrefix s t ic dc sc (i + 1) (j + 1) =
      min (edPrefix s t ic dc sc i (j + 1) + dc)
        (min (edPrefix s t ic dc sc i j +
                substitution_logic (s.getD i '#') (t.getD j '#') sc)
          (edPrefix s t ic dc sc (i + 1) j + ic)) := by
  rw [edPrefix, take_reverse_succ s i hi '#', take_reverse_succ t j hj '#',
    ced_cons_cons]
  rw [edPrefix, edPrefix, edPrefix, take_reverse_succ s i hi '#',
    take_reverse_succ t j hj '#']

/-- Characterisation of the first initialisation loop (column 0). -/
theorem emdRows_apply (dc : ℤ) (t0 : ℕ → ℕ → ℤ) (k : ℕ) :
    ∀ i j, ((List.range' 1 k).foldl (emdRowStep dc) t0) i j =
      if j = 0 ∧ 1 ≤ i ∧ i ≤ k then t0 0 0 + (i : ℤ) * dc else t0 i j := by
  induction k with
  | zero =>
    intro i j
    have hz : ¬(j = 0 ∧ 1 ≤ i ∧ i ≤ 0) := by omega
    rw [show List.range' 1 0 = [] from rfl, List.foldl_nil, if_neg hz]
  | succ k ih =>
    intro i j
    have hconc : List.range' 1 (k + 1) = List.range' 1 k ++ [k + 1] := by
      have h := @List.range'_concat 1 1 k
      simpa [Nat.add_comm] using h
    rw [hconc, List.foldl_append, List.foldl_cons, List.foldl_nil]
    simp only [emdRowStep, writeCell, Nat.add_sub_cancel]
    rw [ih k 0, ih i j]
    by_cases hij : i = k + 1 ∧ j = 0
    · obtain ⟨hi, hj⟩ := hij
      subst hi; subst hj
      have hcond : (0 : ℕ) = 0 ∧ 1 ≤ k + 1 ∧ k + 1 ≤ k + 1 := by omega
      rw [if_pos (show k + 1 = k + 1 ∧ (0 : ℕ) = 0 from ⟨rfl, rfl⟩), if_pos hcond]
      by_cases hk : (0 : ℕ) = 0 ∧ 1 ≤ k ∧ k ≤ k
      · rw [if_pos hk]; push_cast; ring
      · rw [if_neg hk]
        have hk0 : k = 0 := by omega
        subst hk0; push_cast; ring
    · rw [if_neg hij]
      by_cases hc : j = 0 ∧ 1 ≤ i ∧ i ≤ k
      · have hc' : j = 0 ∧ 1 ≤ i ∧ i ≤ k + 1 := by omega
        rw [if_pos hc, if_pos hc']
      · have hc' : ¬(j = 0 ∧ 1 ≤ i ∧ i ≤ k + 1) := by
          intro h; exact hij ⟨by omega, h.1⟩
        rw [if_neg hc, if_neg hc']

/-- Characterisation of the second initialisation loop (row 0). -/
theorem emdCols_apply (ic : ℤ) (t1 : ℕ → ℕ → ℤ) (k : ℕ) :
    ∀ i j, ((List.range' 1 k).foldl (emdColStep ic) t1) i j =
      if i = 0 ∧ 1 ≤ j ∧ j ≤ k then t1 0 0 + (j : ℤ) * ic else t1 i j := by
  induction k with
  | zero =>
    intro i j
    have hz : ¬(i = 0 ∧ 1 ≤ j ∧ j ≤ 0) := by omega
    rw [show List.range' 1 0 = [] from rfl, List.foldl_nil, if_neg hz]
  | succ k ih =>
    intro i j
    have hconc : List.range' 1 (k + 1) = List.range' 1 k ++ [k + 1] := by
      have h := @List.range'_concat 1 1 k
      simpa [Nat.add_comm] using h
    rw [hconc, List.foldl_append, List.foldl_cons, List.foldl_nil]
    simp only [emdColStep, writeCell, Nat.add_sub_cancel]
    rw [ih 0 k, ih i j]
    by_cases hij : i = 0 ∧ j = k + 1
    · obtain ⟨hi, hj⟩ := hij
      subst hi; subst hj
      have hcond : (0 : ℕ) = 0 ∧ 1 ≤ k + 1 ∧ k + 1 ≤ k + 1 := by omega
      rw [if_pos (show (0 : ℕ) = 0 ∧ k + 1 = k + 1 from ⟨rfl, rfl⟩), if_pos hcond]
      by_cases hk : (0 : ℕ) = 0 ∧ 1 ≤ k ∧ k ≤ k
      · rw [if_pos hk]; push_cast; ring
      · rw [if_neg hk]
        have hk0 : k = 0 := by omega
        subst hk0; push_cast; ring
    · rw [if_neg hij]
      by_cases hc : i = 0 ∧ 1 ≤ j ∧ j ≤ k
      · have hc' : i = 0 ∧ 1 ≤ j ∧ j ≤ k + 1 := by omega
        rw [if_pos hc, if_pos hc']
      · have hc' : ¬(i = 0 ∧ 1 ≤ j ∧ j ≤ k + 1) := by
          intro h; exact hij ⟨h.1, by omega⟩
        rw [if_neg hc, if_neg hc']

/-- After both initialisation loops the table holds `emdInitVal`. -/
theorem emdInit_apply (ic dc : ℤ) (ls lt : ℕ) :
    ∀ i j, ((List.range' 1 lt).foldl (emdColStep ic)
        ((List.range' 1 ls).foldl (emdRowStep dc) fun _ _ => (0 : ℤ))) i j =
      emdInitVal ic dc ls lt i j := by
  intro i j
  rw [emdCols_apply, emdRows_apply, emdRows_apply, emdInitVal]
  have h00 : ¬((0 : ℕ) = 0 ∧ 1 ≤ (0 : ℕ) ∧ (0 : ℕ) ≤ ls) := by omega
  rw [if_neg h00]
  split_ifs <;> simp

theorem foldl_flatMap {α β γ : Type} (l : List α) (g : α → List β) (f : γ → β → γ)
    (init : γ) :
    (l.flatMap g).foldl f init = l.foldl (fun acc a => (g a).foldl f acc) init := by
  induction l generalizing init with
  | nil => rfl
  | cons a l ih => simp [List.flatMap_cons, List.foldl_append, ih]

/-- Pointwise evaluation of one interior-loop assignment. -/
theorem emdCellStep_pair (sP tP : List Char) (ic dc sc : ℤ) (tb : ℕ → ℕ → ℤ)
    (r c i j : ℕ) :
    emdCellStep sP tP ic dc sc tb (r, c) i j =
      if i = r ∧ j = c then
        min (tb (r - 1) c + dc)
          (min (tb (r - 1) (c - 1) +
              substitution_logic (sP.getD r '#') (tP.getD c '#') sc)
            (tb r (c - 1) + ic))
      else tb i j := rfl

/-- One interior row of the main loop: processing columns `1..c` of row `r`
extends the region of the table that already holds the reversed-prefix
distance. -/
theorem emdRowFold_apply (s t : List Char) (ic dc sc : ℤ) (r : ℕ)
    (hr1 : 1 ≤ r) (hrls : r ≤ s.length) (T : ℕ → ℕ → ℤ)
    (hT : ∀ i j, T i j =
      if 1 ≤ i ∧ i < r ∧ 1 ≤ j ∧ j ≤ t.length then edPrefix s t ic dc sc i j
      else emdInitVal ic dc s.length t.length i j) :
    ∀ c, c ≤ t.length → ∀ i j,
      ((List.range' 1 c).foldl
          (fun tb cc => emdCellStep ('#' :: s) ('#' :: t) ic dc sc tb (r, cc)) T) i j =
        if 1 ≤ i ∧ i < r ∧ 1 ≤ j ∧ j ≤ t.length ∨ i = r ∧ 1 ≤ j ∧ j ≤ c then
          edPrefix s t ic dc sc i j
        else emdInitVal ic dc s.length t.length i j := by
  intro c
  induction c with
  | zero =>
    intro _ i j
    rw [show List.range' 1 0 = [] from rfl, List.foldl_nil, hT i j]
    by_cases h1 : 1 ≤ i ∧ i < r ∧ 1 ≤ j ∧ j ≤ t.length
    · rw [if_pos h1, if_pos (Or.inl h1)]
    · rw [if_neg h1, if_neg (by intro h; rcases h with h | h; exact h1 h; omega)]
  | succ c ih =>
    intro hc1 i j
    have hc : c ≤ t.length := by omega
    have hconc : List.range' 1 (c + 1) = List.range' 1 c ++ [c + 1] := by
      have h := @List.range'_concat 1 1 c
      simpa [Nat.add_comm] using h
    rw [hconc, List.foldl_append, List.foldl_cons, List.foldl_nil,
      emdCellStep_pair, Nat.add_sub_cancel]
    have hA : ((List.range' 1 c).foldl
        (fun tb cc => emdCellStep ('#' :: s) ('#' :: t) ic dc sc tb (r, cc)) T)
          (r - 1) (c + 1) = edPrefix s t ic dc sc (r - 1) (c + 1) := by
      rw [ih hc]
      rcases Nat.lt_or_ge 1 r with hr2 | hr2
      · rw [if_pos (Or.inl (by omega))]
      · have hr0 : r = 1 := by omega
        have : ¬(1 ≤ r - 1 ∧ r - 1 < r ∧ 1 ≤ c + 1 ∧ c + 1 ≤ t.length ∨
            r - 1 = r ∧ 1 ≤ c + 1 ∧ c + 1 ≤ c) := by omega
        rw [if_neg this, hr0]
        rw [show (1 : ℕ) - 1 = 0 from rfl, emdInitVal,
          if_pos ⟨rfl, by omega, hc1⟩, edPrefix_left_zero s t ic dc sc _ hc1]
    have hB : ((List.range' 1 c).foldl
        (fun tb cc => emdCellStep ('#' :: s) ('#' :: t) ic dc sc tb (r, cc)) T)
          (r - 1) c = edPrefix s t ic dc sc (r - 1) c := by
      rw [ih hc]
      rcases Nat.eq_zero_or_pos c with hc0 | hcpos
      · subst hc0
        have hno : ¬(1 ≤ r - 1 ∧ r - 1 < r ∧ 1 ≤ 0 ∧ 0 ≤ t.length ∨
            r - 1 = r ∧ 1 ≤ 0 ∧ 0 ≤ 0) := by omega
        rw [if_neg hno, emdInitVal, edPrefix_right_zero s t ic dc sc _ (by omega)]
        by_cases hr2 : 1 ≤ r - 1
        · rw [if_neg (by omega), if_pos ⟨rfl, hr2, by omega⟩]
        · have hr0 : r - 1 = 0 := by omega
          rw [hr0, if_neg (by omega), if_neg (by omega)]
          simp
      · rcases Nat.lt_or_ge 1 r with hr2 | hr2
        · rw [if_pos (Or.inl (by omega))]
        · have hr0 : r = 1 := by omega
          have hno : ¬(1 ≤ r - 1 ∧ r - 1 < r ∧ 1 ≤ c ∧ c ≤ t.length ∨
              r - 1 = r ∧ 1 ≤ c ∧ c ≤ c) := by omega
          rw [if_neg hno, hr0]
          rw [show (1 : ℕ) - 1 = 0 from rfl, emdInitVal,
            if_pos ⟨rfl, hcpos, hc⟩, edPrefix_left_zero s t ic dc sc _ hc]
    have hC : ((List.range' 1 c).foldl
        (fun tb cc => emdCellStep ('#' :: s) ('#' :: t) ic dc sc tb (r, cc)) T)
          r c = edPrefix s t ic dc sc r c := by
      rw [ih hc]
      rcases Nat.eq_zero_or_pos c with hc0 | hcpos
      · subst hc0
        have hno : ¬(1 ≤ r ∧ r < r ∧ 1 ≤ 0 ∧ 0 ≤ t.length ∨ r = r ∧ 1 ≤ 0 ∧ 0 ≤ 0) := by
          omega
        rw [if_neg hno, emdInitVal, edPrefix_right_zero s t ic dc sc _ hrls,
          if_neg (by omega), if_pos ⟨rfl, hr1, hrls⟩]
      · rw [if_pos (Or.inr ⟨rfl, hcpos, le_rfl⟩)]
    rw [hA, hB, hC]
    have hgetS : ('#' :: s).getD r '#' = s.getD (r - 1) '#' := by
      rcases Nat.exists_eq_add_of_le hr1 with ⟨k, hk⟩
      subst hk
      simp [Nat.add_comm]
    have hgetT : ('#' :: t).getD (c + 1) '#' = t.getD c '#' := by simp
    rw [hgetS, hgetT]
    have hrec : min (edPrefix s t ic dc sc (r - 1) (c + 1) + dc)
        (min (edPrefix s t ic dc sc (r - 1) c +
            substitution_logic (s.getD (r - 1) '#') (t.getD c '#') sc)
          (edPrefix s t ic dc sc r c + ic)) = edPrefix s t ic dc sc r (c + 1) := by
      have h := edPrefix_succ_succ s t ic dc sc (r - 1) c (by omega) (by omega)
      rw [show r - 1 + 1 = r from by omega] at h
      rw [h]
    rw [hrec]
    by_cases hij : i = r ∧ j = c + 1
    · obtain ⟨hi, hj⟩ := hij
      subst hi; subst hj
      rw [if_pos ⟨rfl, rfl⟩, if_pos (Or.inr ⟨rfl, by omega, le_rfl⟩)]
    · rw [if_neg hij, ih hc i j]
      by_cases hold : 1 ≤ i ∧ i < r ∧ 1 ≤ j ∧ j ≤ t.length ∨ i = r ∧ 1 ≤ j ∧ j ≤ c
      · have hnew : 1 ≤ i ∧ i < r ∧ 1 ≤ j ∧ j ≤ t.length ∨ i = r ∧ 1 ≤ j ∧ j ≤ c + 1 := by
          rcases hold with h | h
          · exact Or.inl h
          · exact Or.inr ⟨h.1, h.2.1, by omega⟩
        rw [if_pos hold, if_pos hnew]
      · have hnew : ¬(1 ≤ i ∧ i < r ∧ 1 ≤ j ∧ j ≤ t.length ∨ i = r ∧ 1 ≤ j ∧ j ≤ c + 1) := by
          intro h
          rcases h with h | h
          · exact hold (Or.inl h)
          · rcases Nat.lt_or_ge j (c + 1) with hj | hj
            · exact hold (Or.inr ⟨h.1, h.2.1, by omega⟩)
            · exact hij ⟨h.1, by omega⟩
        rw [if_neg hold, if_neg hnew]

/-- The whole interior loop, processing rows `1..rk`, on top of the
initialised table. -/
theorem emdMainFold_apply (s t : List Char) (ic dc sc : ℤ) (rk : ℕ)
    (hrk : rk ≤ s.length) :
    ∀ i j, (((List.range' 1 rk).flatMap fun r =>
          (List.range' 1 t.length).map fun c => (r, c)).foldl
        (emdCellStep ('#' :: s) ('#' :: t) ic dc sc)
        ((List.range' 1 t.length).foldl (emdColStep ic)
          ((List.range' 1 s.length).foldl (emdRowStep dc) fun _ _ => (0 : ℤ)))) i j =
      if 1 ≤ i ∧ i ≤ rk ∧ 1 ≤ j ∧ j ≤ t.length then edPrefix s t ic dc sc i j
      else emdInitVal ic dc s.length t.length i j := by
  induction rk with
  | zero =>
    intro i j
    rw [show List.range' 1 0 = [] from rfl]
    rw [show (([] : List ℕ).flatMap fun r =>
      (List.range' 1 t.length).map fun c => (r, c)) = [] from rfl, List.foldl_nil]
    rw [emdInit_apply ic dc s.length t.length i j,
      if_neg (by omega)]
  | succ rk ih =>
    intro i j
    have hconc : List.range' 1 (rk + 1) = List.range' 1 rk ++ [rk + 1] := by
      have h := @List.range'_concat 1 1 rk
      simpa [Nat.add_comm] using h
    rw [hconc, List.flatMap_append, List.foldl_append]
    rw [show (([rk + 1] : List ℕ).flatMap fun r =>
        (List.range' 1 t.length).map fun c => (r, c)) =
      (List.range' 1 t.length).map fun c => (rk + 1, c) from by simp]
    rw [List.foldl_map]
    have hinner := emdRowFold_apply s t ic dc sc (rk + 1) (by omega) (by omega)
      (((List.range' 1 rk).flatMap fun r =>
          (List.range' 1 t.length).map fun c => (r, c)).foldl
        (emdCellStep ('#' :: s) ('#' :: t) ic dc sc)
        ((List.range' 1 t.length).foldl (emdColStep ic)
          ((List.range' 1 s.length).foldl (emdRowStep dc) fun _ _ => (0 : ℤ))))
      (by
        intro a b
        rw [ih (by omega) a b]
        by_cases h1 : 1 ≤ a ∧ a ≤ rk ∧ 1 ≤ b ∧ b ≤ t.length
        · rw [if_pos h1, if_pos (by omega)]
        · rw [if_neg h1, if_neg (by omega)])
      t.length le_rfl i j
    rw [hinner]
    by_cases h1 : 1 ≤ i ∧ i < rk + 1 ∧ 1 ≤ j ∧ j ≤ t.length ∨
        i = rk + 1 ∧ 1 ≤ j ∧ j ≤ t.length
    · rw [if_pos h1, if_pos (by omega)]
    · rw [if_neg h1, if_neg (by omega)]

/-- The final table of `min_edit_distance`: reversed-prefix distances on the
interior, cumulative insert/delete costs on the borders. -/
theorem min_edit_distance_fun_apply (s t : List Char) (ic dc sc : ℤ) (i j : ℕ) :
    min_edit_distance_fun s t ic dc sc i j =
      if 1 ≤ i ∧ i ≤ s.length ∧ 1 ≤ j ∧ j ≤ t.length then edPrefix s t ic dc sc i j
      else emdInitVal ic dc s.length t.length i j := by
  rw [min_edit_distance_fun]
  simp only [List.length_cons, Nat.add_sub_cancel]
  exact emdMainFold_apply s t ic dc sc s.length le_rfl i j

/-- The bottom-right table cell equals the recursive edit distance of the
reversed sequences. -/
theorem min_edit_distance_fun_corner (s t : List Char) (ic dc sc : ℤ) :
    min_edit_distance_fun s t ic dc sc s.length t.length =
      ced ic dc sc s.reverse t.reverse := by
  rw [min_edit_distance_fun_apply]
  by_cases hs : 1 ≤ s.length
  · by_cases ht : 1 ≤ t.length
    · rw [if_pos ⟨hs, le_rfl, ht, le_rfl⟩, edPrefix, List.take_length, List.take_length]
    · have ht0 : t.length = 0 := by omega
      have htnil : t = [] := List.length_eq_zero.mp ht0
      subst htnil
      rw [if_neg (by omega), emdInitVal, if_neg (by omega), if_pos ⟨rfl, hs, le_rfl⟩,
        List.reverse_nil, ced_nil_right]
      simp
  · have hs0 : s.length = 0 := by omega
    have hsnil : s = [] := List.length_eq_zero.mp hs0
    subst hsnil
    rw [if_neg (by omega), List.reverse_nil, ced_nil_left, emdInitVal]
    by_cases ht : 1 ≤ t.length
    · rw [if_pos ⟨rfl, ht, le_rfl⟩]
      simp
    · have ht0 : t.length = 0 := by omega
      rw [if_neg (by omega), if_neg (by omega)]
      simp [ht0]

/-! ## Theorems: edit scripts

Transport lemmas for scripts, the continuity of the recursive distance under
one edit, the lower bound over all scripts, and a script attaining the
distance. -/

theorem Steps.single {ic dc sc : ℤ} {u v : List Char} {k : ℤ}
    (h : OneEdit ic dc sc u v k) : Steps ic dc sc u v k := by
  have h' := Steps.tail (Steps.refl u) h
  simpa using h'

theorem Steps.trans {ic dc sc : ℤ} {u v w : List Char} {c c' : ℤ}
    (h1 : Steps ic dc sc u v c) (h2 : Steps ic dc sc v w c') :
    Steps ic dc sc u w (c + c') := by
  induction h2 with
  | refl => simpa using h1
  | tail _ hop ih =>
    have h' := Steps.tail ih hop
    rw [add_assoc] at h'
    exact h'

theorem oneEdit_cons_lift {ic dc sc : ℤ} {v w : List Char} {k : ℤ} (x : Char)
    (h : OneEdit ic dc sc v w k) : OneEdit ic dc sc (x :: v) (x :: w) k := by
  cases h with
  | insert l r a => exact OneEdit.insert (x :: l) r a
  | delete l r a => exact OneEdit.delete (x :: l) r a
  | subst l r a b => exact OneEdit.subst (x :: l) r a b

theorem steps_cons_lift {ic dc sc : ℤ} {v w : List Char} {c : ℤ} (x : Char)
    (h : Steps ic dc sc v w c) : Steps ic dc sc (x :: v) (x :: w) c := by
  induction h with
  | refl => exact Steps.refl _
  | tail _ hop ih => exact Steps.tail ih (oneEdit_cons_lift x hop)

theorem oneEdit_rev {ic dc sc : ℤ} {u v : List Char} {k : ℤ}
    (h : OneEdit ic dc sc u v k) : OneEdit ic dc sc u.reverse v.reverse k := by
  cases h with
  | insert l r a =>
    have h' := @OneEdit.insert ic dc sc r.reverse l.reverse a
    simpa [List.reverse_append] using h'
  | delete l r a =>
    have h' := @OneEdit.delete ic dc sc r.reverse l.reverse a
    simpa [List.reverse_append] using h'
  | subst l r a b =>
    have h' := @OneEdit.subst ic dc sc r.reverse l.reverse a b
    simpa [List.reverse_append] using h'

theorem steps_rev {ic dc sc : ℤ} {u v : List Char} {c : ℤ}
    (h : Steps ic dc sc u v c) : Steps ic dc sc u.reverse v.reverse c := by
  induction h with
  | refl => exact Steps.refl _
  | tail _ hop ih => exact Steps.tail ih (oneEdit_rev hop)

theorem substitution_logic_nonneg {sc : ℤ} (hsc : 0 ≤ sc) (x y : Char) :
    0 ≤ substitution_logic x y sc := by
  rw [substitution_logic]
  split_ifs <;> omega

theorem substitution_logic_comm (x y : Char) (sc : ℤ) :
    substitution_logic x y sc = substitution_logic y x sc := by
  simp [substitution_logic, eq_comm]

theorem substitution_logic_triangle {sc : ℤ} (hsc : 0 ≤ sc) (x a b : Char) :
    substitution_logic x b sc ≤ substitution_logic x a sc + sc := by
  rw [substitution_logic, substitution_logic]
  split_ifs <;> omega

/-- Deleting the head of the source costs at most `dc` more. -/
theorem ced_cons_le_del (ic dc sc : ℤ) (x : Char) (s w : List Char) :
    ced ic dc sc (x :: s) w ≤ ced ic dc sc s w + dc := by
  cases w with
  | nil => exact le_of_eq (ced_cons_nil ic dc sc x s)
  | cons y v => rw [ced_cons_cons]; exact min_le_left _ _

/-- Inserting a symbol anywhere in the target raises the distance by at most
the insertion cost. -/
theorem ced_le_insert (ic dc sc : ℤ) (a : Char) (r : List Char) :
    ∀ (u l : List Char),
      ced ic dc sc u (l ++ a :: r) ≤ ced ic dc sc u (l ++ r) + ic := by
  intro u
  induction u with
  | nil =>
    intro l
    rw [ced_nil_left, ced_nil_left]
    apply le_of_eq
    simp [List.length_append]
    ring
  | cons x s ihu =>
    intro l
    induction l with
    | nil =>
      rw [show ([] : List Char) ++ a :: r = a :: r from rfl,
        show ([] : List Char) ++ r = r from rfl, ced_cons_cons]
      exact le_trans (min_le_right _ _) (min_le_right _ _)
    | cons y l' ihl =>
      rw [show (y :: l') ++ a :: r = y :: (l' ++ a :: r) from rfl,
        show (y :: l') ++ r = y :: (l' ++ r) from rfl, ced_cons_cons, ced_cons_cons]
      have h1 : ced ic dc sc s (y :: (l' ++ a :: r)) + dc ≤
          (ced ic dc sc s (y :: (l' ++ r)) + dc) + ic := by
        have h := ihu (y :: l')
        rw [show (y :: l') ++ a :: r = y :: (l' ++ a :: r) from rfl,
          show (y :: l') ++ r = y :: (l' ++ r) from rfl] at h
        linarith
      have h2 : ced ic dc sc s (l' ++ a :: r) + substitution_logic x y sc ≤
          (ced ic dc sc s (l' ++ r) + substitution_logic x y sc) + ic := by
        have h := ihu l'
        linarith
      have h3 : ced ic dc sc (x :: s) (l' ++ a :: r) + ic ≤
          (ced ic dc sc (x :: s) (l' ++ r) + ic) + ic := by
        linarith [ihl]
      calc min (ced ic dc sc s (y :: (l' ++ a :: r)) + dc)
            (min (ced ic dc sc s (l' ++ a :: r) + substitution_logic x y sc)
              (ced ic dc sc (x :: s) (l' ++ a :: r) + ic)) ≤
          min ((ced ic dc sc s (y :: (l' ++ r)) + dc) + ic)
            (min ((ced ic dc sc s (l' ++ r) + substitution_logic x y sc) + ic)
              ((ced ic dc sc (x :: s) (l' ++ r) + ic) + ic)) :=
            min_le_min h1 (min_le_min h2 h3)
        _ = min (ced ic dc sc s (y :: (l' ++ r)) + dc)
            (min (ced ic dc sc s (l' ++ r) + substitution_logic x y sc)
              (ced ic dc sc (x :: s) (l' ++ r) + ic)) + ic := by
            rw [min_add_add_right, min_add_add_right]

/-- Deleting a symbol anywhere in the target raises the distance by at most
the deletion cost (for non-negative costs). -/
theorem ced_le_delete (ic dc sc : ℤ) (hic : 0 ≤ ic) (hdc : 0 ≤ dc) (hsc : 0 ≤ sc)
    (a : Char) (r : List Char) :
    ∀ (u l : List Char),
      ced ic dc sc u (l ++ r) ≤ ced ic dc sc u (l ++ a :: r) + dc := by
  intro u
  induction u with
  | nil =>
    intro l
    rw [ced_nil_left, ced_nil_left]
    simp only [List.length_append, List.length_cons]
    push_cast
    nlinarith [hic, hdc]
  | cons x s ihu =>
    intro l
    induction l with
    | nil =>
      rw [show ([] : List Char) ++ a :: r = a :: r from rfl,
        show ([] : List Char) ++ r = r from rfl]
      rw [ced_cons_cons, ← min_add_add_right, ← min_add_add_right]
      have hb1 : ced ic dc sc (x :: s) r ≤ (ced ic dc sc s (a :: r) + dc) + dc := by
        have hd := ced_cons_le_del ic dc sc x s r
        have h := ihu []
        rw [show ([] : List Char) ++ a :: r = a :: r from rfl,
          show ([] : List Char) ++ r = r from rfl] at h
        linarith
      have hb2 : ced ic dc sc (x :: s) r ≤
          (ced ic dc sc s r + substitution_logic x a sc) + dc := by
        have hd := ced_cons_le_del ic dc sc x s r
        have hnn := substitution_logic_nonneg hsc x a
        linarith
      have hb3 : ced ic dc sc (x :: s) r ≤ (ced ic dc sc (x :: s) r + ic) + dc := by
        linarith
      exact le_min hb1 (le_min hb2 hb3)
    | cons y l' ihl =>
      rw [show (y :: l') ++ a :: r = y :: (l' ++ a :: r) from rfl,
        show (y :: l') ++ r = y :: (l' ++ r) from rfl, ced_cons_cons, ced_cons_cons]
      have h1 : ced ic dc sc s (y :: (l' ++ r)) + dc ≤
          (ced ic dc sc s (y :: (l' ++ a :: r)) + dc) + dc := by
        have h := ihu (y :: l')
        rw [show (y :: l') ++ a :: r = y :: (l' ++ a :: r) from rfl,
          show (y :: l') ++ r = y :: (l' ++ r) from rfl] at h
        linarith
      have h2 : ced ic dc sc s (l' ++ r) + substitution_logic x y sc ≤
          (ced ic dc sc s (l' ++ a :: r) + substitution_logic x y sc) + dc := by
        have h := ihu l'
        linarith
      have h3 : ced ic dc sc (x :: s) (l' ++ r) + ic ≤
          (ced ic dc sc (x :: s) (l' ++ a :: r) + ic) + dc := by
        linarith [ihl]
      calc min (ced ic dc sc s (y :: (l' ++ r)) + dc)
            (min (ced ic dc sc s (l' ++ r) + substitution_logic x y sc)
              (ced ic dc sc (x :: s) (l' ++ r) + ic)) ≤
          min ((ced ic dc sc s (y :: (l' ++ a :: r)) + dc) + dc)
            (min ((ced ic dc sc s (l' ++ a :: r) + substitution_logic x y sc) + dc)
              ((ced ic dc sc (x :: s) (l' ++ a :: r) + ic) + dc)) :=
            min_le_min h1 (min_le_min h2 h3)
        _ = min (ced ic dc sc s (y :: (l' ++ a :: r)) + dc)
            (min (ced ic dc sc s (l' ++ a :: r) + substitution_logic x y sc)
              (ced ic dc sc (x :: s) (l' ++ a :: r) + ic)) + dc := by
            rw [min_add_add_right, min_add_add_right]

/-- Substituting a symbol anywhere in the target raises the distance by at most
the substitution cost (for a non-negative substitution cost). -/
theorem ced_le_subst (ic dc sc : ℤ) (hsc : 0 ≤ sc) (a b : Char) (r : List Char) :
    ∀ (u l : List Char),
      ced ic dc sc u (l ++ b :: r) ≤ ced ic dc sc u (l ++ a :: r) + sc := by
  intro u
  induction u with
  | nil =>
    intro l
    rw [ced_nil_left, ced_nil_left]
    simp only [List.length_append, List.length_cons]
    linarith
  | cons x s ihu =>
    intro l
    induction l with
    | nil =>
      rw [show ([] : List Char) ++ a :: r = a :: r from rfl,
        show ([] : List Char) ++ b :: r = b :: r from rfl, ced_cons_cons, ced_cons_cons,
        ← min_add_add_right, ← min_add_add_right]
      have h1 : ced ic dc sc s (b :: r) + dc ≤ (ced ic dc sc s (a :: r) + dc) + sc := by
        have h := ihu []
        rw [show ([] : List Char) ++ a :: r = a :: r from rfl,
          show ([] : List Char) ++ b :: r = b :: r from rfl] at h
        linarith
      have h2 : ced ic dc sc s r + substitution_logic x b sc ≤
          (ced ic dc sc s r + substitution_logic x a sc) + sc := by
        have h := substitution_logic_triangle hsc x a b
        linarith
      have h3 : ced ic dc sc (x :: s) r + ic ≤ (ced ic dc sc (x :: s) r + ic) + sc := by
        linarith
      exact min_le_min h1 (min_le_min h2 h3)
    | cons y l' ihl =>
      rw [show (y :: l') ++ a :: r = y :: (l' ++ a :: r) from rfl,
        show (y :: l') ++ b :: r = y :: (l' ++ b :: r) from rfl, ced_cons_cons, ced_cons_cons]
      have h1 : ced ic dc sc s (y :: (l' ++ b :: r)) + dc ≤
          (ced ic dc sc s (y :: (l' ++ a :: r)) + dc) + sc := by
        have h := ihu (y :: l')
        rw [show (y :: l') ++ a :: r = y :: (l' ++ a :: r) from rfl,
          show (y :: l') ++ b :: r = y :: (l' ++ b :: r) from rfl] at h
        linarith
      have h2 : ced ic dc sc s (l' ++ b :: r) + substitution_logic x y sc ≤
          (ced ic dc sc s (l' ++ a :: r) + substitution_logic x y sc) + sc := by
        have h := ihu l'
        linarith
      have h3 : ced ic dc sc (x :: s) (l' ++ b :: r) + ic ≤
          (ced ic dc sc (x :: s) (l' ++ a :: r) + ic) + sc := by
        linarith [ihl]
      calc min (ced ic dc sc s (y :: (l' ++ b :: r)) + dc)
            (min (ced ic dc sc s (l' ++ b :: r) + substitution_logic x y sc)
              (ced ic dc sc (x :: s) (l' ++ b :: r) + ic)) ≤
          min ((ced ic dc sc s (y :: (l' ++ a :: r)) + dc) + sc)
            (min ((ced ic dc sc s (l' ++ a :: r) + substitution_logic x y sc) + sc)
              ((ced ic dc sc (x :: s) (l' ++ a :: r) + ic) + sc)) :=
            min_le_min h1 (min_le_min h2 h3)
        _ = min (ced ic dc sc s (y :: (l' ++ a :: r)) + dc)
            (min (ced ic dc sc s (l' ++ a :: r) + substitution_logic x y sc)
              (ced ic dc sc (x :: s) (l' ++ a :: r) + ic)) + sc := by
            rw [min_add_add_right, min_add_add_right]

theorem ced_self_le (ic dc sc : ℤ) : ∀ u : List Char, ced ic dc sc u u ≤ 0 := by
  intro u
  induction u with
  | nil => exact le_of_eq (ced_nil_nil ic dc sc)
  | cons x u ih =>
    rw [ced_cons_cons]
    have h : ced ic dc sc u u + substitution_logic x x sc ≤ 0 := by
      simp [substitution_logic]
      exact ih
    exact le_trans (le_trans (min_le_right _ _) (min_le_left _ _)) h

/-- Lower bound: every edit script costs at least the recursive distance. -/
theorem ced_le_steps {ic dc sc : ℤ} (hic : 0 ≤ ic) (hdc : 0 ≤ dc) (hsc : 0 ≤ sc)
    {u v : List Char} {c : ℤ} (h : Steps ic dc sc u v c) : ced ic dc sc u v ≤ c := by
  induction h with
  | refl => exact ced_self_le ic dc sc _
  | tail _ hop ih =>
    cases hop with
    | insert l r a =>
      have h1 := ced_le_insert ic dc sc a r u l
      linarith
    | delete l r a =>
      have h1 := ced_le_delete ic dc sc hic hdc hsc a r u l
      linarith
    | subst l r a b =>
      have h1 := ced_le_subst ic dc sc hsc a b r u l
      linarith

/-- Attainment: some edit script achieves exactly the recursive distance. -/
theorem steps_to_ced (ic dc sc : ℤ) : ∀ (n : ℕ) (u v : List Char),
    u.length + v.length = n → Steps ic dc sc u v (ced ic dc sc u v) := by
  intro n
  induction n using Nat.strong_induction_on with
  | _ n ih =>
    intro u v hn
    match u, v with
    | [], [] =>
      rw [ced_nil_nil]
      exact Steps.refl []
    | [], y :: v =>
      rw [ced_nil_cons]
      exact Steps.tail (ih (([] : List Char).length + v.length) (by simp at hn ⊢; omega)
        [] v rfl) (OneEdit.insert [] v y)
    | x :: u, [] =>
      rw [ced_cons_nil]
      have h1 := Steps.trans (Steps.single (OneEdit.delete [] u x))
        (ih (u.length + ([] : List Char).length) (by simp at hn ⊢; omega) u [] rfl)
      rw [add_comm] at h1
      exact h1
    | x :: u, y :: v =>
      rw [ced_cons_cons]
      rcases min_cases (ced ic dc sc u (y :: v) + dc)
          (min (ced ic dc sc u v + substitution_logic x y sc)
            (ced ic dc sc (x :: u) v + ic)) with ⟨hm, _⟩ | ⟨hm, _⟩
      · rw [hm]
        have h1 := Steps.trans (Steps.single (OneEdit.delete [] u x))
          (ih (u.length + (y :: v).length) (by simp at hn ⊢; omega) u (y :: v) rfl)
        rw [add_comm] at h1
        exact h1
      · rw [hm]
        rcases min_cases (ced ic dc sc u v + substitution_logic x y sc)
            (ced ic dc sc (x :: u) v + ic) with ⟨hm2, _⟩ | ⟨hm2, _⟩
        · rw [hm2]
          by_cases hxy : x = y
          · subst hxy
            rw [show substitution_logic x x sc = 0 from by simp [substitution_logic]]
            have h1 := steps_cons_lift x
              (ih (u.length + v.length) (by simp at hn ⊢; omega) u v rfl)
            simpa using h1
          · rw [show substitution_logic x y sc = sc from by
              simp [substitution_logic, hxy]]
            have h1 := Steps.trans (Steps.single (OneEdit.subst [] u x y))
              (steps_cons_lift y (ih (u.length + v.length) (by simp at hn ⊢; omega) u v rfl))
            rw [add_comm] at h1
            exact h1
        · rw [hm2]
          exact Steps.tail (ih ((x :: u).length + v.length) (by simp at hn ⊢; omega)
            (x :: u) v rfl) (OneEdit.insert [] v y)

/-- Exchanging the two sequences exchanges the roles of insertion and deletion. -/
theorem ced_swap (ic dc sc : ℤ) : ∀ (n : ℕ) (u v : List Char),
    u.length + v.length = n → ced ic dc sc u v = ced dc ic sc v u := by
  intro n
  induction n using Nat.strong_induction_on with
  | _ n ih =>
    intro u v hn
    match u, v with
    | [], [] => rw [ced_nil_nil, ced_nil_nil]
    | [], y :: v =>
      rw [ced_nil_cons, ced_cons_nil,
        ih (([] : List Char).length + v.length) (by simp at hn ⊢; omega) [] v rfl]
    | x :: u, [] =>
      rw [ced_cons_nil, ced_nil_cons,
        ih (u.length + ([] : List Char).length) (by simp at hn ⊢; omega) u [] rfl]
    | x :: u, y :: v =>
      rw [ced_cons_cons, ced_cons_cons,
        ih (u.length + (y :: v).length) (by simp at hn ⊢; omega) u (y :: v) rfl,
        ih (u.length + v.length) (by simp at hn ⊢; omega) u v rfl,
        ih ((x :: u).length + v.length) (by simp at hn ⊢; omega) (x :: u) v rfl,
        substitution_logic_comm x y sc]
      simp only [← min_assoc]
      ac_rfl

/-- The table function agrees with the reversed-prefix distance on the whole
grid (including the borders). -/
theorem min_edit_distance_fun_eq_edPrefix (s t : List Char) (ic dc sc : ℤ)
    (i j : ℕ) (hi : i ≤ s.length) (hj : j ≤ t.length) :
    min_edit_distance_fun s t ic dc sc i j = edPrefix s t ic dc sc i j := by
  rw [min_edit_distance_fun_apply]
  by_cases hin : 1 ≤ i ∧ i ≤ s.length ∧ 1 ≤ j ∧ j ≤ t.length
  · rw [if_pos hin]
  · rw [if_neg hin, emdInitVal]
    by_cases hi0 : i = 0
    · subst hi0
      by_cases hj0 : j = 0
      · subst hj0
        rw [if_neg (by omega), if_neg (by omega)]
        rw [edPrefix]
        simp [ced_nil_nil]
      · rw [if_pos ⟨rfl, by omega, hj⟩, edPrefix_left_zero s t ic dc sc j hj]
    · have hj0 : j = 0 := by omega
      subst hj0
      rw [if_neg (by omega), if_pos ⟨rfl, by omega, hi⟩,
        edPrefix_right_zero s t ic dc sc i hi]

theorem range_map_getD {α : Type} (n : ℕ) (f : ℕ → α) (d : α) (i : ℕ) (h : i < n) :
    ((List.range n).map f).getD i d = f i := by
  rw [List.getD_eq_getElem?_getD, List.getElem?_map, List.getElem?_range h]
  rfl

/-- Reading any in-range cell of the returned table yields the table function. -/
theorem min_edit_distance_table_cell (s t : List Char) (ic dc sc : ℤ) (i j : ℕ)
    (hi : i ≤ s.length) (hj : j ≤ t.length) :
    (((min_edit_distance s t ic dc sc).2.getD i []).getD j 0) =
      min_edit_distance_fun s t ic dc sc i j := by
  rw [min_edit_distance]
  rw [range_map_getD (s.length + 1) _ [] i (by omega),
    range_map_getD (t.length + 1) _ 0 j (by omega)]

theorem min_edit_distance_fst (s t : List Char) (ic dc sc : ℤ) :
    (min_edit_distance s t ic dc sc).1 =
      min_edit_distance_fun s t ic dc sc s.length t.length := rfl

/-- The distance computed by the code is achieved by an edit script. -/
theorem steps_min_edit_distance (s t : List Char) (ic dc sc : ℤ) :
    Steps ic dc sc s t (min_edit_distance s t ic dc sc).1 := by
  rw [min_edit_distance_fst, min_edit_distance_fun_corner]
  have h := steps_rev (steps_to_ced ic dc sc (s.reverse.length + t.reverse.length)
    s.reverse t.reverse rfl)
  simpa using h

/-- The distance computed by the code is a lower bound on every edit script. -/
theorem min_edit_distance_le_steps (s t : List Char) (ic dc sc : ℤ)
    (hic : 0 ≤ ic) (hdc : 0 ≤ dc) (hsc : 0 ≤ sc) {c : ℤ}
    (h : Steps ic dc sc s t c) : (min_edit_distance s t ic dc sc).1 ≤ c := by
  rw [min_edit_distance_fst, min_edit_distance_fun_corner]
  exact ced_le_steps hic hdc hsc (steps_rev h)

/-! ## Claims about the edit-distance engine (C1, C4, C5, C8, C9) -/

/-- C1: for non-negative costs the computation returns `(distance, table)` with
`distance = table[len(source)][len(target)]`, and this distance is the least
total weighted cost of any sequence of single-symbol insertions, deletions and
substitutions transforming `source` into `target`. -/
theorem C1_edit_distance_minimal (source target : List Char)
    (insert_cost delete_cost substitute_cost : ℤ) (hic : 0 ≤ insert_cost)
    (hdc : 0 ≤ delete_cost) (hsc : 0 ≤ substitute_cost) :
    (min_edit_distance source target insert_cost delete_cost substitute_cost).1 =
      (((min_edit_distance source target insert_cost delete_cost substitute_cost).2.getD
          source.length []).getD target.length 0) ∧
    IsLeast {c : ℤ | Steps insert_cost delete_cost substitute_cost source target c}
      (min_edit_distance source target insert_cost delete_cost substitute_cost).1 := by
  refine ⟨?_, ?_, ?_⟩
  · rw [min_edit_distance_table_cell source target _ _ _ source.length target.length
      le_rfl le_rfl, min_edit_distance_fst]
  · exact steps_min_edit_distance source target _ _ _
  · intro c hc
    exact min_edit_distance_le_steps source target _ _ _ hic hdc hsc hc

/-- Witness for C1 at a concrete input: `ab → b` with unit indel costs has
distance 1, and that distance is the least edit-script cost. -/
theorem C1_witness :
    (min_edit_distance ['a', 'b'] ['b'] 1 1 2).1 = 1 ∧
      ((min_edit_distance ['a', 'b'] ['b'] 1 1 2).1 =
        (((min_edit_distance ['a', 'b'] ['b'] 1 1 2).2.getD 2 []).getD 1 0) ∧
      IsLeast {c : ℤ | Steps 1 1 2 ['a', 'b'] ['b'] c}
        (min_edit_distance ['a', 'b'] ['b'] 1 1 2).1) :=
  ⟨by decide,
    C1_edit_distance_minimal ['a', 'b'] ['b'] 1 1 2 (by decide) (by decide) (by decide)⟩

/-- C4, counterexample: with a negative insert cost the computation does not
fail at all — there is no cost validation anywhere in `min_edit_distance` —
it simply returns the usual distance/table pair, so "fails with
`InvalidCostError` iff some cost is negative" is false on the code. -/
theorem C4_counterexample :
    min_edit_distance [] ['a'] (-1) 1 1 = (-1, [[0, -1]]) := by decide

/-- Shape of the returned value, for any integer costs: the table has
`source.length + 1` rows of `target.length + 1` cells each, and the distance
is its bottom-right cell. -/
theorem min_edit_distance_shape (source target : List Char)
    (insert_cost delete_cost substitute_cost : ℤ) :
    (min_edit_distance source target insert_cost delete_cost substitute_cost).2.length =
        source.length + 1 ∧
    (∀ row ∈ (min_edit_distance source target insert_cost delete_cost substitute_cost).2,
        row.length = target.length + 1) ∧
    (min_edit_distance source target insert_cost delete_cost substitute_cost).1 =
      (((min_edit_distance source target insert_cost delete_cost substitute_cost).2.getD
          source.length []).getD target.length 0) := by
  refine ⟨?_, ?_, ?_⟩
  · rw [min_edit_distance]
    simp
  · intro row hrow
    rw [min_edit_distance] at hrow
    simp only [List.mem_map, List.mem_range] at hrow
    obtain ⟨i, _, hrow⟩ := hrow
    rw [← hrow]
    simp
  · rw [min_edit_distance_table_cell source target _ _ _ source.length target.length
      le_rfl le_rfl, min_edit_distance_fst]

/-- C4 (amended): the computation performs no cost validation and never fails:
for every pair of sequences (empty ones included) and all integer costs,
negative ones included, it returns the `(source.length+1) × (target.length+1)`
table together with the distance read at its bottom-right cell. -/
theorem C4_no_cost_validation (source target : List Char)
    (insert_cost delete_cost substitute_cost : ℤ) :
    (min_edit_distance source target insert_cost delete_cost substitute_cost).2.length =
        source.length + 1 ∧
    (∀ row ∈ (min_edit_distance source target insert_cost delete_cost substitute_cost).2,
        row.length = target.length + 1) ∧
    (min_edit_distance source target insert_cost delete_cost substitute_cost).1 =
      (((min_edit_distance source target insert_cost delete_cost substitute_cost).2.getD
          source.length []).getD target.length 0) :=
  min_edit_distance_shape source target insert_cost delete_cost substitute_cost

/-- C5: for non-negative costs the produced table has dimensions
`(n+1) × (m+1)`, its borders hold the cumulative insert/delete costs, and
every interior cell satisfies the three-way minimum recurrence. -/
theorem C5_table_recurrence (source target : List Char)
    (insert_cost delete_cost substitute_cost : ℤ) (_hic : 0 ≤ insert_cost)
    (_hdc : 0 ≤ delete_cost) (_hsc : 0 ≤ substitute_cost) :
    (min_edit_distance source target insert_cost delete_cost substitute_cost).2.length =
        source.length + 1 ∧
    (∀ row ∈ (min_edit_distance source target insert_cost delete_cost substitute_cost).2,
        row.length = target.length + 1) ∧
    (∀ j ≤ target.length,
      (((min_edit_distance source target insert_cost delete_cost substitute_cost).2.getD
          0 []).getD j 0) = (j : ℤ) * insert_cost) ∧
    (∀ i ≤ source.length,
      (((min_edit_distance source target insert_cost delete_cost substitute_cost).2.getD
          i []).getD 0 0) = (i : ℤ) * delete_cost) ∧
    (∀ i j, 1 ≤ i → i ≤ source.length → 1 ≤ j → j ≤ target.length →
      (((min_edit_distance source target insert_cost delete_cost substitute_cost).2.getD
          i []).getD j 0) =
        min ((((min_edit_distance source target insert_cost delete_cost
            substitute_cost).2.getD (i - 1) []).getD j 0) + delete_cost)
          (min ((((min_edit_distance source target insert_cost delete_cost
              substitute_cost).2.getD (i - 1) []).getD (j - 1) 0) +
              substitution_logic (source.getD (i - 1) '#') (target.getD (j - 1) '#')
                substitute_cost)
            ((((min_edit_distance source target insert_cost delete_cost
                substitute_cost).2.getD i []).getD (j - 1) 0) + insert_cost))) := by
  obtain ⟨hlen, hrow, hcell⟩ := min_edit_distance_shape source target insert_cost
    delete_cost substitute_cost
  refine ⟨hlen, hrow, ?_, ?_, ?_⟩
  · intro j hj
    rw [min_edit_distance_table_cell source target _ _ _ 0 j (by omega) hj,
      min_edit_distance_fun_eq_edPrefix source target _ _ _ 0 j (by omega) hj,
      edPrefix_left_zero source target _ _ _ j hj]
  · intro i hi
    rw [min_edit_distance_table_cell source target _ _ _ i 0 hi (by omega),
      min_edit_distance_fun_eq_edPrefix source target _ _ _ i 0 hi (by omega),
      edPrefix_right_zero source target _ _ _ i hi]
  · intro i j hi1 hi2 hj1 hj2
    rw [min_edit_distance_table_cell source target _ _ _ i j hi2 hj2,
      min_edit_distance_table_cell source target _ _ _ (i - 1) j (by omega) hj2,
      min_edit_distance_table_cell source target _ _ _ (i - 1) (j - 1) (by omega)
        (by omega),
      min_edit_distance_table_cell source target _ _ _ i (j - 1) hi2 (by omega),
      min_edit_distance_fun_eq_edPrefix source target _ _ _ i j hi2 hj2,
      min_edit_distance_fun_eq_edPrefix source target _ _ _ (i - 1) j (by omega) hj2,
      min_edit_distance_fun_eq_edPrefix source target _ _ _ (i - 1) (j - 1) (by omega)
        (by omega),
      min_edit_distance_fun_eq_edPrefix source target _ _ _ i (j - 1) hi2 (by omega)]
    have h := edPrefix_succ_succ source target insert_cost delete_cost substitute_cost
      (i - 1) (j - 1) (by omega) (by omega)
    rw [show i - 1 + 1 = i from by omega, show j - 1 + 1 = j from by omega] at h
    exact h

/-- Witness for C5 at a concrete input, with the table evaluated. -/
theorem C5_witness :
    (min_edit_distance ['a'] ['b'] 1 1 2).2 = [[0, 1], [1, 2]] ∧
      ((min_edit_distance ['a'] ['b'] 1 1 2).2.length = 2 ∧
      (∀ row ∈ (min_edit_distance ['a'] ['b'] 1 1 2).2, row.length = 2) ∧
      (∀ j ≤ 1,
        (((min_edit_distance ['a'] ['b'] 1 1 2).2.getD 0 []).getD j 0) = (j : ℤ) * 1) ∧
      (∀ i ≤ 1,
        (((min_edit_distance ['a'] ['b'] 1 1 2).2.getD i []).getD 0 0) = (i : ℤ) * 1) ∧
      (∀ i j, 1 ≤ i → i ≤ 1 → 1 ≤ j → j ≤ 1 →
        (((min_edit_distance ['a'] ['b'] 1 1 2).2.getD i []).getD j 0) =
          min ((((min_edit_distance ['a'] ['b'] 1 1 2).2.getD (i - 1) []).getD j 0) + 1)
            (min ((((min_edit_distance ['a'] ['b'] 1 1 2).2.getD (i - 1) []).getD
                (j - 1) 0) +
                substitution_logic (['a'].getD (i - 1) '#') (['b'].getD (j - 1) '#') 2)
              ((((min_edit_distance ['a'] ['b'] 1 1 2).2.getD i []).getD (j - 1) 0) +
                1)))) :=
  ⟨by decide, C5_table_recurrence ['a'] ['b'] 1 1 2 (by decide) (by decide) (by decide)⟩

/-- C8: when the insert and delete costs coincide (and all costs are
non-negative) the computed distance is symmetric in the two sequences. -/
theorem C8_symmetry (S T : List Char) (insert_cost delete_cost substitute_cost : ℤ)
    (heq : insert_cost = delete_cost) (_hic : 0 ≤ insert_cost)
    (_hdc : 0 ≤ delete_cost) (_hsc : 0 ≤ substitute_cost) :
    (min_edit_distance S T insert_cost delete_cost substitute_cost).1 =
      (min_edit_distance T S insert_cost delete_cost substitute_cost).1 := by
  subst heq
  rw [min_edit_distance_fst, min_edit_distance_fst, min_edit_distance_fun_corner,
    min_edit_distance_fun_corner]
  exact ced_swap insert_cost insert_cost substitute_cost
    (S.reverse.length + T.reverse.length) S.reverse T.reverse rfl

/-- Witness for C8 at a concrete input. -/
theorem C8_witness :
    (min_edit_distance ['a', 'b'] ['b', 'a'] 1 1 2).1 = 2 ∧
      (min_edit_distance ['a', 'b'] ['b', 'a'] 1 1 2).1 =
        (min_edit_distance ['b', 'a'] ['a', 'b'] 1 1 2).1 :=
  ⟨by decide, C8_symmetry ['a', 'b'] ['b', 'a'] 1 1 2 rfl (by decide) (by decide)
    (by decide)⟩

/-- C9: triangle inequality for the computed distance under equal indel costs
with the substitution cost at most insert + delete (all non-negative). -/
theorem C9_triangle (A B C : List Char) (insert_cost delete_cost substitute_cost : ℤ)
    (_heq : insert_cost = delete_cost)
    (_hsub : substitute_cost ≤ insert_cost + delete_cost) (hic : 0 ≤ insert_cost)
    (hdc : 0 ≤ delete_cost) (hsc : 0 ≤ substitute_cost) :
    (min_edit_distance A C insert_cost delete_cost substitute_cost).1 ≤
      (min_edit_distance A B insert_cost delete_cost substitute_cost).1 +
        (min_edit_distance B C insert_cost delete_cost substitute_cost).1 := by
  have h1 := steps_min_edit_distance A B insert_cost delete_cost substitute_cost
  have h2 := steps_min_edit_distance B C insert_cost delete_cost substitute_cost
  exact min_edit_distance_le_steps A C insert_cost delete_cost substitute_cost
    hic hdc hsc (h1.trans h2)

/-- Witness for C9 at a concrete input. -/
theorem C9_witness :
    (min_edit_distance ['a'] ['c'] 1 1 2).1 = 2 ∧
      (min_edit_distance ['a'] ['b'] 1 1 2).1 = 2 ∧
      (min_edit_distance ['b'] ['c'] 1 1 2).1 = 2 ∧
      (min_edit_distance ['a'] ['c'] 1 1 2).1 ≤
        (min_edit_distance ['a'] ['b'] 1 1 2).1 + (min_edit_distance ['b'] ['c'] 1 1 2).1 :=
  ⟨by decide, by decide, by decide,
    C9_triangle ['a'] ['b'] ['c'] 1 1 2 rfl (by decide) (by decide) (by decide)
      (by decide)⟩

/-! ## Theorems: BPE step failure and iteration (C3) -/

theorem key_pairs_eq_nil {k : List String} (h : k.length ≤ 1) : key_pairs k = [] := by
  match k with
  | [] => rfl
  | [c] => rfl
  | c1 :: c2 :: rest => simp at h

/-- When every key is a single symbol there is no adjacent pair at all. -/
theorem build_pairs_eq_nil {tc : List (List String × ℕ)}
    (h : ∀ kv ∈ tc, kv.1.length ≤ 1) : build_pairs tc = [] := by
  rw [build_pairs]
  have hgen : ∀ (l : List (List String × ℕ)), (∀ kv ∈ l, kv.1.length ≤ 1) →
      ∀ ps, l.foldl
        (fun ps kv => (key_pairs kv.1).foldl (fun ps p => add_pair ps p kv.2) ps) ps = ps := by
    intro l
    induction l with
    | nil => intro _ ps; rfl
    | cons kv l ih =>
      intro hl ps
      rw [List.foldl_cons, key_pairs_eq_nil (hl kv (List.mem_cons_self kv l)),
        List.foldl_nil]
      exact ih (fun kv' h' => hl kv' (List.mem_cons_of_mem kv h')) ps
  exact hgen tc h []

/-- `find_most_common_pair` fails exactly when `pairs` stays empty. -/
theorem find_most_common_pair_none {tc : List (List String × ℕ)}
    (h : ∀ kv ∈ tc, kv.1.length ≤ 1) : find_most_common_pair tc = none := by
  rw [find_most_common_pair, build_pairs_eq_nil h]
  rfl

theorem bpe_step_none {s : BPEState} (h : ∀ kv ∈ s.token_counts, kv.1.length ≤ 1) :
    bpe_step s = none := by
  rw [bpe_step, find_most_common_pair_none h]

theorem bpe_merge_iterate_none (n : ℕ) :
    (fun o => o.bind fun st => (bpe_step st).map fun ps => ps.2)^[n]
      (none : Option BPEState) = none := by
  induction n with
  | zero => rfl
  | succ n ih => rw [Function.iterate_succ_apply]; exact ih

/-- C3: `train`/`merge` is exactly `n` iterations of `step`, and from a state
whose every key is a single symbol (no adjacent pair exists anywhere) the very
first step fails, so any positive number of merges fails — the
`InsufficientDataError` of the spec, realised by the code as the `ValueError`
escaping from `max` over an empty `pairs` dictionary. -/
theorem C3_train_steps_and_failure (s : BPEState) (n : ℕ) :
    bpe_merge n s =
      (fun o => o.bind fun st => (bpe_step st).map fun ps => ps.2)^[n] (some s) ∧
    ((∀ kv ∈ s.token_counts, kv.1.length ≤ 1) → 1 ≤ n → bpe_merge n s = none) := by
  constructor
  · induction n generalizing s with
    | zero => rfl
    | succ n ih =>
      rw [Function.iterate_succ_apply]
      cases hstep : bpe_step s with
      | none =>
        rw [show bpe_merge (n + 1) s = match bpe_step s with
          | none => none
          | some ps => bpe_merge n ps.2 from rfl, hstep]
        rw [show ((some s).bind fun st => (bpe_step st).map fun ps => ps.2) =
          (bpe_step s).map fun ps => ps.2 from rfl, hstep]
        exact (bpe_merge_iterate_none n).symm
      | some ps =>
        rw [show bpe_merge (n + 1) s = match bpe_step s with
          | none => none
          | some ps => bpe_merge n ps.2 from rfl, hstep]
        rw [show ((some s).bind fun st => (bpe_step st).map fun ps => ps.2) =
          (bpe_step s).map fun ps => ps.2 from rfl, hstep]
        exact ih ps.2
  · intro h hn
    match n, hn with
    | n + 1, _ =>
      rw [show bpe_merge (n + 1) s = match bpe_step s with
        | none => none
        | some ps => bpe_merge n ps.2 from rfl, bpe_step_none h]

/-- Witness for C3: a state whose only key is the single symbol `low</W>`
cannot be merged; one requested merge fails. -/
theorem C3_witness :
    bpe_merge 1 (BPEState.mk [(["low</W>"], 5)] ["low</W>"]) = none ∧
      (bpe_merge 1 (BPEState.mk [(["low</W>"], 5)] ["low</W>"]) =
        (fun o => o.bind fun st => (bpe_step st).map fun ps => ps.2)^[1]
          (some (BPEState.mk [(["low</W>"], 5)] ["low</W>"])) ∧
      ((∀ kv ∈ (BPEState.mk [(["low</W>"], 5)] ["low</W>"]).token_counts,
          kv.1.length ≤ 1) → 1 ≤ 1 →
        bpe_merge 1 (BPEState.mk [(["low</W>"], 5)] ["low</W>"]) = none)) := by
  refine ⟨by decide, C3_train_steps_and_failure _ 1⟩

/-! ## Theorems: the vocabulary membership invariant (C7) -/

theorem mem_addSym_self (v : List String) (s : String) :
    s ∈ (if s ∈ v then v else v ++ [s]) := by
  split_ifs with h
  · exact h
  · exact List.mem_append_right v (List.mem_singleton_self s)

theorem mem_addSym_mono {v : List String} {a : String} (s : String) (h : a ∈ v) :
    a ∈ (if s ∈ v then v else v ++ [s]) := by
  split_ifs
  · exact h
  · exact List.mem_append_left _ h

theorem mem_symFold_mono {a : String} :
    ∀ (k : List String) (v : List String), a ∈ v →
      a ∈ k.foldl (fun v s => if s ∈ v then v else v ++ [s]) v := by
  intro k
  induction k with
  | nil => intro v h; exact h
  | cons s k ih => intro v h; exact ih _ (mem_addSym_mono s h)

theorem mem_symFold_self {a : String} :
    ∀ (k : List String) (v : List String), a ∈ k →
      a ∈ k.foldl (fun v s => if s ∈ v then v else v ++ [s]) v := by
  intro k
  induction k with
  | nil => intro v h; simp at h
  | cons s k ih =>
    intro v h
    rcases List.mem_cons.mp h with h | h
    · subst h
      exact mem_symFold_mono k _ (mem_addSym_self v a)
    · exact ih _ h

/-- Initialisation seeds the vocabulary with every symbol of every key. -/
theorem mem_initialize_vocab {tc : List (List String × ℕ)} {kv : List String × ℕ}
    (hkv : kv ∈ tc) {sym : String} (hsym : sym ∈ kv.1) :
    sym ∈ initialize_vocab tc := by
  rw [initialize_vocab]
  have hgen : ∀ (l : List (List String × ℕ)) (v : List String),
      (kv ∈ l ∨ sym ∈ v) →
      sym ∈ l.foldl (fun v kv => kv.1.foldl (fun v s => if s ∈ v then v else v ++ [s]) v) v := by
    intro l
    induction l with
    | nil =>
      intro v h
      rcases h with h | h
      · simp at h
      · exact h
    | cons kv' l ih =>
      intro v h
      rcases h with h | h
      · rcases List.mem_cons.mp h with h | h
        · subst h
          exact ih _ (Or.inr (mem_symFold_self _ _ hsym))
        · exact ih _ (Or.inl h)
      · exact ih _ (Or.inr (mem_symFold_mono _ _ h))
  exact hgen tc [] (Or.inl hkv)

/-- Every symbol of a rewritten key is an old symbol or a vocabulary member:
the scan only ever emits an input symbol or a concatenation it found in the
vocabulary. -/
theorem mem_merge_characters (vocab : List String) :
    ∀ (n : ℕ) (k : List String), k.length ≤ n →
      ∀ sym ∈ merge_characters vocab k, sym ∈ k ∨ sym ∈ vocab := by
  intro n
  induction n with
  | zero =>
    intro k hk sym hsym
    match k with
    | [] => simp [merge_characters] at hsym
    | c :: k => simp at hk
  | succ n ih =>
    intro k hk sym hsym
    match k with
    | [] => simp [merge_characters] at hsym
    | [c] =>
      rw [show merge_characters vocab [c] = [c] from rfl] at hsym
      exact Or.inl (List.mem_singleton.mp hsym ▸ List.mem_singleton_self c)
    | c1 :: c2 :: rest =>
      rw [show merge_characters vocab (c1 :: c2 :: rest) =
        if c1 ++ c2 ∈ vocab then (c1 ++ c2) :: merge_characters vocab rest
        else c1 :: merge_characters vocab (c2 :: rest) from rfl] at hsym
      split_ifs at hsym with hin
      · rcases List.mem_cons.mp hsym with h | h
        · exact Or.inr (h ▸ hin)
        · rcases ih rest (by simp at hk ⊢; omega) sym h with h' | h'
          · exact Or.inl (List.mem_cons_of_mem c1 (List.mem_cons_of_mem c2 h'))
          · exact Or.inr h'
      · rcases List.mem_cons.mp hsym with h | h
        · exact Or.inl (h ▸ List.mem_cons_self c1 _)
        · rcases ih (c2 :: rest) (by simp at hk ⊢; omega) sym h with h' | h'
          · exact Or.inl (List.mem_cons_of_mem c1 h')
          · exact Or.inr h'

/-- C7: on every reachable trainer state, every symbol occurring in any key of
the token frequencies is a member of the vocabulary: initialisation
establishes the invariant and every merge step preserves it. -/
theorem C7_vocab_invariant (s : BPEState) (h : Reachable s) :
    ∀ kv ∈ s.token_counts, ∀ sym ∈ kv.1, sym ∈ s.vocab := by
  induction h with
  | init corpus =>
    intro kv hkv sym hsym
    exact mem_initialize_vocab hkv hsym
  | step hreach hstep ih =>
    rename_i s0 p s1
    rw [bpe_step] at hstep
    cases hfind : find_most_common_pair s0.token_counts with
    | none => rw [hfind] at hstep; simp at hstep
    | some q =>
      rw [hfind] at hstep
      simp only [Option.some.injEq, Prod.mk.injEq] at hstep
      obtain ⟨hq, hs1⟩ := hstep
      intro kv hkv sym hsym
      rw [← hs1] at hkv ⊢
      simp only [modify_tokens, List.mem_map] at hkv
      obtain ⟨kv0, hkv0, hkveq⟩ := hkv
      rw [← hkveq] at hsym
      rcases mem_merge_characters (s0.vocab ++ [q.1 ++ q.2]) kv0.1.length kv0.1
          le_rfl sym hsym with h' | h'
      · exact List.mem_append_left _ (ih kv0 hkv0 sym h')
      · exact h'

/-- Witness for C7: the invariant holds at the concrete initial state for the
one-word corpus `ab`, which is reachable by construction. -/
theorem C7_witness :
    (bpe_init ["ab".toList]).vocab = ["a", "b", "</W>"] ∧
      ∀ kv ∈ (bpe_init ["ab".toList]).token_counts, ∀ sym ∈ kv.1,
        sym ∈ (bpe_init ["ab".toList]).vocab :=
  ⟨by decide, C7_vocab_invariant _ (Reachable.init ["ab".toList])⟩

/-! ## Theorems: the merge-step rewrite (C2)

`modify_tokens` does not look at the selected pair at all: its scan merges any
two adjacent symbols whose concatenation is in the current vocabulary.  On most
states this coincides with replacing exactly the occurrences of the selected
pair, but not always: a corpus whose words can recombine into the literal
end-of-word marker `</W>` (or into any other already-present vocabulary entry)
makes the scan merge a pair that was never selected. -/

/-- C2, counterexample: the state `c2state2` is reached from `c2corpus` after
two merge steps; the third step selects the pair `("W>", "</W>")`, yet its
rewrite also changes the key `p </ W> q </W>` — which contains no adjacent
occurrence of the selected pair — by merging `("</", "W>")` into the
end-of-word marker `</W>` that is already in the vocabulary.  So the merge
step does not replace exactly the occurrences of the selected pair. -/
theorem C2_counterexample :
    bpe_merge 2 (bpe_init c2corpus) = some c2state2 ∧
    bpe_step c2state2 = some (("W>", "</W>"),
      ⟨[(["x", "</", "y", "</W>"], 9), (["W></W>"], 10), (["p", "</W>", "q", "</W>"], 1)],
        c2state2.vocab ++ ["W></W>"]⟩) ∧
    modify_tokens (c2state2.vocab ++ ["W>" ++ "</W>"]) c2state2.token_counts ≠
      c2state2.token_counts.map (fun kv => (spec_replace_pair "W>" "</W>" kv.1, kv.2)) ∧
    merge_characters (c2state2.vocab ++ ["W>" ++ "</W>"]) ["p", "</", "W>", "q", "</W>"] =
      ["p", "</W>", "q", "</W>"] ∧
    spec_replace_pair "W>" "</W>" ["p", "</", "W>", "q", "</W>"] =
      ["p", "</", "W>", "q", "</W>"] := by
  refine ⟨by decide, by decide, by decide, by decide, by decide⟩

theorem key_pairs_subset_cons (x : String) (l : List String) :
    ∀ q ∈ key_pairs l, q ∈ key_pairs (x :: l) := by
  cases l with
  | nil => intro q hq; simp [key_pairs] at hq
  | cons y l' =>
    intro q hq
    rw [show key_pairs (x :: y :: l') = (x, y) :: key_pairs (y :: l') from rfl]
    exact List.mem_cons_of_mem _ hq

/-- When the selected pair is the only adjacent pair of the key whose
concatenation lies in the vocabulary, the code's scan coincides with the
spec's replace-exactly-the-pair rewrite. -/
theorem merge_characters_eq_spec_replace (vocab2 : List String) (a b : String)
    (hab : a ++ b ∈ vocab2) :
    ∀ (n : ℕ) (k : List String), k.length ≤ n →
      (∀ q ∈ key_pairs k, q.1 ++ q.2 ∈ vocab2 → q = (a, b)) →
      merge_characters vocab2 k = spec_replace_pair a b k := by
  intro n
  induction n with
  | zero =>
    intro k hk _
    match k with
    | [] => rfl
    | c :: k => simp at hk
  | succ n ih =>
    intro k hk hcond
    match k with
    | [] => rfl
    | [c] => rfl
    | c1 :: c2 :: rest =>
      have hpair : (c1, c2) ∈ key_pairs (c1 :: c2 :: rest) := by
        rw [show key_pairs (c1 :: c2 :: rest) = (c1, c2) :: key_pairs (c2 :: rest)
          from rfl]
        exact List.mem_cons_self _ _
      by_cases hin : c1 ++ c2 ∈ vocab2
      · have heq := hcond (c1, c2) hpair hin
        have hc1 : c1 = a := congrArg Prod.fst heq
        have hc2 : c2 = b := congrArg Prod.snd heq
        rw [show merge_characters vocab2 (c1 :: c2 :: rest) =
          if c1 ++ c2 ∈ vocab2 then (c1 ++ c2) :: merge_characters vocab2 rest
          else c1 :: merge_characters vocab2 (c2 :: rest) from rfl, if_pos hin]
        rw [show spec_replace_pair a b (c1 :: c2 :: rest) =
          if c1 = a ∧ c2 = b then (a ++ b) :: spec_replace_pair a b rest
          else c1 :: spec_replace_pair a b (c2 :: rest) from rfl, if_pos ⟨hc1, hc2⟩]
        rw [hc1, hc2]
        rw [ih rest (by simp at hk ⊢; omega) (fun q hq hqin =>
          hcond q (key_pairs_subset_cons c1 (c2 :: rest) q
            (key_pairs_subset_cons c2 rest q hq)) hqin)]
      · have hne : ¬(c1 = a ∧ c2 = b) := by
          intro hc
          rw [hc.1, hc.2] at hin
          exact hin hab
        rw [show merge_characters vocab2 (c1 :: c2 :: rest) =
          if c1 ++ c2 ∈ vocab2 then (c1 ++ c2) :: merge_characters vocab2 rest
          else c1 :: merge_characters vocab2 (c2 :: rest) from rfl, if_neg hin]
        rw [show spec_replace_pair a b (c1 :: c2 :: rest) =
          if c1 = a ∧ c2 = b then (a ++ b) :: spec_replace_pair a b rest
          else c1 :: spec_replace_pair a b (c2 :: rest) from rfl, if_neg hne]
        rw [ih (c2 :: rest) (by simp at hk ⊢; omega) (fun q hq hqin =>
          hcond q (key_pairs_subset_cons c1 (c2 :: rest) q hq) hqin)]

/-- C2 (amended): a merge step selecting `(a, b)` concatenates the pair,
appends it to the vocabulary and rewrites every key (preserving its count) by
the left-to-right scan that merges every adjacent pair whose concatenation is
in the updated vocabulary; this coincides with replacing exactly the
non-overlapping occurrences of `(a, b)` on every key in which `(a, b)` is the
only adjacent pair whose concatenation is a vocabulary member. -/
theorem C2_merge_step (s : BPEState) (a b : String) (s' : BPEState)
    (h : bpe_step s = some ((a, b), s')) :
    s'.vocab = s.vocab ++ [a ++ b] ∧
    s'.token_counts =
      s.token_counts.map (fun kv => (merge_characters (s.vocab ++ [a ++ b]) kv.1, kv.2)) ∧
    ∀ kv ∈ s.token_counts,
      (∀ q ∈ key_pairs kv.1, q.1 ++ q.2 ∈ s.vocab ++ [a ++ b] → q = (a, b)) →
      merge_characters (s.vocab ++ [a ++ b]) kv.1 = spec_replace_pair a b kv.1 := by
  rw [bpe_step] at h
  cases hfind : find_most_common_pair s.token_counts with
  | none => rw [hfind] at h; simp at h
  | some q =>
    rw [hfind] at h
    simp only [Option.some.injEq, Prod.mk.injEq] at h
    obtain ⟨hq, hs'⟩ := h
    subst hq
    refine ⟨by rw [← hs'], by rw [← hs']; rfl, ?_⟩
    intro kv _ hcond
    exact merge_characters_eq_spec_replace (s.vocab ++ [a ++ b]) a b
      (List.mem_append_right _ (List.mem_singleton_self _)) kv.1.length kv.1
      le_rfl hcond

/-- Witness for C2 (amended) on the one-word corpus `ab`, whose single step
selects `("a", "b")`. -/
theorem C2_witness :
    bpe_step (bpe_init ["ab".toList]) = some (("a", "b"),
      ⟨[(["ab", "</W>"], 1)], ["a", "b", "</W>", "ab"]⟩) ∧
      ((⟨[(["ab", "</W>"], 1)], ["a", "b", "</W>", "ab"]⟩ : BPEState).vocab =
          (bpe_init ["ab".toList]).vocab ++ ["a" ++ "b"] ∧
        (⟨[(["ab", "</W>"], 1)], ["a", "b", "</W>", "ab"]⟩ : BPEState).token_counts =
          (bpe_init ["ab".toList]).token_counts.map
            (fun kv => (merge_characters ((bpe_init ["ab".toList]).vocab ++ ["a" ++ "b"])
              kv.1, kv.2)) ∧
        ∀ kv ∈ (bpe_init ["ab".toList]).token_counts,
          (∀ q ∈ key_pairs kv.1,
            q.1 ++ q.2 ∈ (bpe_init ["ab".toList]).vocab ++ ["a" ++ "b"] → q = ("a", "b")) →
          merge_characters ((bpe_init ["ab".toList]).vocab ++ ["a" ++ "b"]) kv.1 =
            spec_replace_pair "a" "b" kv.1) :=
  ⟨by decide, C2_merge_step _ "a" "b" _ (by decide)⟩

/-! ## Theorems: the textbook example (C6) -/

/-- C6: training on `{low:5, lowest:2, newer:6, wider:3, new:2}` for 8 merges
succeeds, and under the implementation's deterministic tie-break (first
maximal pair in dictionary insertion order) the first two selected merges are
`(e, r)` and then `(er, </W>)`. -/
theorem C6_textbook_trace :
    (bpe_trace 8 (bpe_init c6corpus)).length = 8 ∧
    (bpe_trace 8 (bpe_init c6corpus)).take 2 = [("e", "r"), ("er", "</W>")] := by
  refine ⟨by decide, by decide⟩

/-! ## Theorems: maximality and tie-break of the selected pair (C10) -/

theorem build_pairs_eq_fold (tc : List (List String × ℕ)) :
    build_pairs tc = (wstream tc).foldl (fun ps pv => add_pair ps pv.1 pv.2) [] := by
  rw [build_pairs, wstream, foldl_flatMap]
  have hfun : (fun (ps : List ((String × String) × ℕ)) (kv : List String × ℕ) =>
      ((key_pairs kv.1).map fun p => (p, kv.2)).foldl
        (fun ps pv => add_pair ps pv.1 pv.2) ps) =
      fun ps kv => (key_pairs kv.1).foldl (fun ps p => add_pair ps p kv.2) ps := by
    funext ps kv
    rw [List.foldl_map]
  rw [hfun]

theorem mem_dedup_fold (a : String × String) :
    ∀ (l : List (String × String)) (init : List (String × String)),
      (a ∈ l.foldl (fun acc p => if p ∈ acc then acc else acc ++ [p]) init ↔
        a ∈ init ∨ a ∈ l) := by
  intro l
  induction l with
  | nil => intro init; simp
  | cons p l ih =>
    intro init
    rw [List.foldl_cons, ih]
    constructor
    · intro h
      rcases h with h | h
      · split_ifs at h with hp
        · exact Or.inl h
        · rcases List.mem_append.mp h with h | h
          · exact Or.inl h
          · exact Or.inr (List.mem_cons.mpr (Or.inl (List.mem_singleton.mp h)))
      · exact Or.inr (List.mem_cons_of_mem p h)
    · intro h
      rcases h with h | h
      · refine Or.inl ?_
        split_ifs
        · exact h
        · exact List.mem_append_left _ h
      · rcases List.mem_cons.mp h with h | h
        · subst h
          refine Or.inl ?_
          split_ifs with hp
          · exact hp
          · exact List.mem_append_right _ (List.mem_singleton_self a)
        · exact Or.inr h

theorem mem_firstOcc (a : String × String) (l : List (String × String)) :
    a ∈ firstOcc l ↔ a ∈ l := by
  rw [firstOcc, mem_dedup_fold]
  simp

theorem dedup_fold_ext :
    ∀ (l : List (String × String)) (init : List (String × String)),
      ∃ ext, l.foldl (fun acc p => if p ∈ acc then acc else acc ++ [p]) init =
        init ++ ext := by
  intro l
  induction l with
  | nil => intro init; exact ⟨[], by simp⟩
  | cons p l ih =>
    intro init
    rw [List.foldl_cons]
    split_ifs with hp
    · exact ih init
    · obtain ⟨ext, hext⟩ := ih (init ++ [p])
      exact ⟨p :: ext, by rw [hext, List.append_assoc]; rfl⟩

theorem dedup_fold_nodup :
    ∀ (l : List (String × String)) (init : List (String × String)),
      init.Nodup →
      (l.foldl (fun acc p => if p ∈ acc then acc else acc ++ [p]) init).Nodup := by
  intro l
  induction l with
  | nil => intro init h; exact h
  | cons p l ih =>
    intro init h
    rw [List.foldl_cons]
    split_ifs with hp
    · exact ih init h
    · refine ih (init ++ [p]) ?_
      rw [List.nodup_append]
      exact ⟨h, List.nodup_singleton p, by
        intro a ha hb
        rw [List.mem_singleton] at hb
        subst hb
        exact hp ha⟩

theorem firstOcc_nodup (l : List (String × String)) : (firstOcc l).Nodup :=
  dedup_fold_nodup l [] List.nodup_nil

theorem stream_weight_append (q : String × String)
    (A B : List ((String × String) × ℕ)) :
    stream_weight q (A ++ B) = stream_weight q A + stream_weight q B := by
  rw [stream_weight, stream_weight, stream_weight, List.filter_append,
    List.map_append, List.sum_append]

theorem stream_weight_singleton (q : String × String) (pv : (String × String) × ℕ) :
    stream_weight q [pv] = if pv.1 = q then pv.2 else 0 := by
  rw [stream_weight]
  by_cases h : pv.1 = q <;> simp [List.filter_singleton, h]

theorem stream_weight_zero_of_not_mem {q : String × String}
    {T : List ((String × String) × ℕ)} (h : q ∉ T.map Prod.fst) :
    stream_weight q T = 0 := by
  rw [stream_weight]
  have hfil : T.filter (fun pv => pv.1 = q) = [] := by
    rw [List.filter_eq_nil_iff]
    intro pv hpv
    simp only [decide_eq_true_eq]
    intro hq
    exact h (List.mem_map.mpr ⟨pv, hpv, hq⟩)
  rw [hfil]
  rfl

/-- The pairs dictionary after scanning a tagged stream: its keys in
first-occurrence order, each with its total weight so far. -/
theorem add_pair_fold_eq (T : List ((String × String) × ℕ)) :
    T.foldl (fun ps pv => add_pair ps pv.1 pv.2) [] =
      (firstOcc (T.map Prod.fst)).map fun q => (q, stream_weight q T) := by
  induction T using List.reverseRecOn with
  | nil => rfl
  | append_singleton T pv ih =>
    rw [List.foldl_append, List.foldl_cons, List.foldl_nil, ih, List.map_append]
    rw [show (firstOcc ((T.map Prod.fst) ++ [pv].map Prod.fst)) =
      if pv.1 ∈ firstOcc (T.map Prod.fst) then firstOcc (T.map Prod.fst)
      else firstOcc (T.map Prod.fst) ++ [pv.1] from by
        rw [firstOcc, firstOcc, List.foldl_append]; rfl]
    have hany : (((firstOcc (T.map Prod.fst)).map fun q => (q, stream_weight q T)).any
        fun q => q.1 = pv.1) = true ↔ pv.1 ∈ firstOcc (T.map Prod.fst) := by
      rw [List.any_eq_true]
      constructor
      · rintro ⟨r, hr, hr1⟩
        simp only [List.mem_map] at hr
        obtain ⟨q, hq, hqr⟩ := hr
        rw [← hqr] at hr1
        simp only [decide_eq_true_eq] at hr1
        rw [← hr1]
        exact hq
      · intro hmem
        refine ⟨(pv.1, stream_weight pv.1 T), List.mem_map.mpr ⟨pv.1, hmem, rfl⟩, by simp⟩
    by_cases hmem : pv.1 ∈ firstOcc (T.map Prod.fst)
    · rw [if_pos hmem, add_pair, if_pos (hany.mpr hmem), List.map_map]
      refine List.map_congr_left ?_
      intro q _
      simp only [Function.comp_apply]
      by_cases hq : q = pv.1
      · rw [if_pos (by simpa using hq), stream_weight_append,
          stream_weight_singleton, if_pos (by rw [hq]), hq]
      · rw [if_neg (by simpa using hq), stream_weight_append,
          stream_weight_singleton, if_neg (fun hc => hq hc.symm)]
        simp
    · rw [if_neg hmem, add_pair, if_neg (by rw [hany]; exact hmem), List.map_append]
      congr 1
      · refine List.map_congr_left ?_
        intro q hq
        have hne : pv.1 ≠ q := fun hc => hmem (hc ▸ hq)
        rw [stream_weight_append, stream_weight_singleton, if_neg hne]
        simp
      · have hz : stream_weight pv.1 T = 0 := by
          refine stream_weight_zero_of_not_mem ?_
          intro hc
          exact hmem ((mem_firstOcc pv.1 (T.map Prod.fst)).mpr hc)
        simp [stream_weight_append, stream_weight_singleton, hz]

/-- Python's `max` keeps the running maximum and replaces it only on a strictly
greater value, so the result is the first maximal element. -/
theorem python_max_fold (rest : List ((String × String) × ℕ)) :
    ∀ q0 : (String × String) × ℕ,
      ∃ b, rest.foldl (fun best q' => if best.2 < q'.2 then q' else best) q0 = b ∧
        ((b = q0 ∧ ∀ r ∈ rest, r.2 ≤ q0.2) ∨
          (∃ l1 l2, rest = l1 ++ b :: l2 ∧ q0.2 < b.2 ∧
            (∀ r ∈ l1, r.2 < b.2) ∧ (∀ r ∈ rest, r.2 ≤ b.2))) := by
  induction rest with
  | nil =>
    intro q0
    exact ⟨q0, rfl, Or.inl ⟨rfl, by simp⟩⟩
  | cons r rest ih =>
    intro q0
    rw [List.foldl_cons]
    by_cases hlt : q0.2 < r.2
    · rw [if_pos hlt]
      obtain ⟨b, hb, hcase⟩ := ih r
      refine ⟨b, hb, Or.inr ?_⟩
      rcases hcase with ⟨hbq, hall⟩ | ⟨l1, l2, hsplit, hgt, hl1, hall⟩
      · subst hbq
        refine ⟨[], rest, rfl, hlt, by simp, ?_⟩
        intro x hx
        rcases List.mem_cons.mp hx with hx | hx
        · subst hx; exact le_rfl
        · exact hall x hx
      · refine ⟨r :: l1, l2, by rw [hsplit, List.cons_append], lt_trans hlt hgt, ?_, ?_⟩
        · intro x hx
          rcases List.mem_cons.mp hx with hx | hx
          · subst hx; exact hgt
          · exact hl1 x hx
        · intro x hx
          rcases List.mem_cons.mp hx with hx | hx
          · subst hx; exact le_of_lt hgt
          · exact hall x hx
    · rw [if_neg hlt]
      obtain ⟨b, hb, hcase⟩ := ih q0
      refine ⟨b, hb, ?_⟩
      rcases hcase with ⟨hbq, hall⟩ | ⟨l1, l2, hsplit, hgt, hl1, hall⟩
      · refine Or.inl ⟨hbq, ?_⟩
        intro x hx
        rcases List.mem_cons.mp hx with hx | hx
        · subst hx; omega
        · exact hall x hx
      · refine Or.inr ⟨r :: l1, l2, by rw [hsplit, List.cons_append], hgt, ?_, ?_⟩
        · intro x hx
          rcases List.mem_cons.mp hx with hx | hx
          · subst hx; omega
          · exact hl1 x hx
        · intro x hx
          rcases List.mem_cons.mp hx with hx | hx
          · subst hx; omega
          · exact hall x hx

/-- `python_max` returns the key of the first entry holding the maximum value. -/
theorem python_max_spec (ps : List ((String × String) × ℕ)) (hne : ps ≠ []) :
    ∃ l1 x l2, ps = l1 ++ x :: l2 ∧ python_max ps = some x.1 ∧
      (∀ r ∈ ps, r.2 ≤ x.2) ∧ (∀ r ∈ l1, r.2 < x.2) := by
  match ps with
  | [] => exact absurd rfl hne
  | q0 :: rest =>
    obtain ⟨b, hb, hcase⟩ := python_max_fold rest q0
    have hmax : python_max (q0 :: rest) = some b.1 := by
      rw [python_max, hb]
    rcases hcase with ⟨hbq, hall⟩ | ⟨l1, l2, hsplit, hgt, hl1, hall⟩
    · refine ⟨[], q0, rest, rfl, by rw [hmax, hbq], ?_, by simp⟩
      intro x hx
      rcases List.mem_cons.mp hx with hx | hx
      · subst hx; exact le_rfl
      · exact hall x hx
    · refine ⟨q0 :: l1, b, l2, by rw [hsplit, List.cons_append], hmax, ?_, ?_⟩
      · intro x hx
        rcases List.mem_cons.mp hx with hx | hx
        · subst hx; exact le_of_lt hgt
        · exact hall x hx
      · intro x hx
        rcases List.mem_cons.mp hx with hx | hx
        · subst hx; exact hgt
        · exact hl1 x hx

theorem stream_weight_map_const (q : String × String) (v : ℕ) :
    ∀ l : List (String × String),
      stream_weight q (l.map fun p => (p, v)) = v * l.count q := by
  intro l
  induction l with
  | nil => simp [stream_weight]
  | cons p l ih =>
    rw [List.map_cons,
      show ((p, v) :: l.map fun p => (p, v)) = [(p, v)] ++ l.map fun p => (p, v)
        from rfl,
      stream_weight_append, ih, stream_weight_singleton, List.count_cons]
    by_cases hp : p = q
    · rw [if_pos hp, if_pos (by simpa using hp)]
      ring
    · rw [if_neg hp, if_neg (by simpa using hp)]
      ring

/-- The weight along the tagged scan is the aggregate weighted count. -/
theorem stream_weight_wstream (tc : List (List String × ℕ)) (q : String × String) :
    stream_weight q (wstream tc) = pair_weight tc q := by
  rw [wstream, pair_weight]
  induction tc with
  | nil => simp [stream_weight]
  | cons kv tc ih =>
    rw [List.flatMap_cons, stream_weight_append, ih, List.map_cons, List.sum_cons,
      stream_weight_map_const]

theorem pair_stream_eq_map_fst (tc : List (List String × ℕ)) :
    pair_stream tc = (wstream tc).map Prod.fst := by
  rw [pair_stream, wstream, List.map_flatMap]
  congr 1
  funext kv
  rw [List.map_map]
  have hmapid : (key_pairs kv.1).map (Prod.fst ∘ fun p => (p, kv.2)) =
      (key_pairs kv.1).map id := List.map_congr_left fun a _ => rfl
  rw [hmapid, List.map_id]

/-- Every element of a list has a first occurrence: a split whose prefix does
not contain it. -/
theorem exists_first_split {q : String × String} :
    ∀ {S : List (String × String)}, q ∈ S →
      ∃ s1 s2, S = s1 ++ q :: s2 ∧ q ∉ s1 := by
  intro S
  induction S with
  | nil => intro h; simp at h
  | cons p S ih =>
    intro h
    by_cases hp : p = q
    · subst hp
      exact ⟨[], S, rfl, by simp⟩
    · rcases List.mem_cons.mp h with h | h
      · exact absurd h.symm hp
      · obtain ⟨s1, s2, hsplit, hq⟩ := ih h
        refine ⟨p :: s1, s2, by rw [hsplit, List.cons_append], ?_⟩
        intro hc
        rcases List.mem_cons.mp hc with hc | hc
        · exact hp hc.symm
        · exact hq hc

/-- `firstOcc` of a split at a first occurrence: the deduplicated prefix,
then the element, then a remainder. -/
theorem firstOcc_split {q : String × String} {s1 s2 : List (String × String)}
    (hq : q ∉ s1) :
    ∃ ext, firstOcc (s1 ++ q :: s2) = firstOcc s1 ++ q :: ext := by
  rw [firstOcc, List.foldl_append, List.foldl_cons]
  have hqf : q ∉ s1.foldl (fun acc p => if p ∈ acc then acc else acc ++ [p]) [] := by
    intro hc
    rw [mem_dedup_fold] at hc
    rcases hc with hc | hc
    · simp at hc
    · exact hq hc
  rw [if_neg hqf]
  obtain ⟨ext, hext⟩ := dedup_fold_ext s2
    (s1.foldl (fun acc p => if p ∈ acc then acc else acc ++ [p]) [] ++ [q])
  refine ⟨ext, ?_⟩
  rw [hext, firstOcc, List.append_assoc]
  rfl

/-- In a duplicate-free list, the split at an element is unique. -/
theorem append_cons_inj_of_nodup {α : Type} {a : α} :
    ∀ {l1 m1 l2 m2 : List α}, l1 ++ a :: l2 = m1 ++ a :: m2 →
      (l1 ++ a :: l2).Nodup → l1 = m1 ∧ l2 = m2 := by
  intro l1
  induction l1 with
  | nil =>
    intro m1 l2 m2 h hnd
    match m1 with
    | [] => simpa using h
    | b :: m1 =>
      rw [List.nil_append, List.cons_append, List.cons.injEq] at h
      obtain ⟨hab, hl2⟩ := h
      rw [List.nil_append, List.nodup_cons] at hnd
      exfalso
      refine hnd.1 ?_
      rw [hl2]
      exact List.mem_append_right _ (List.mem_cons_self a m2)
  | cons c l1 ih =>
    intro m1 l2 m2 h hnd
    match m1 with
    | [] =>
      rw [List.nil_append, List.cons_append, List.cons.injEq] at h
      obtain ⟨hab, hl2⟩ := h
      rw [List.cons_append, List.nodup_cons] at hnd
      exfalso
      refine hnd.1 ?_
      rw [hab]
      exact List.mem_append_right _ (List.mem_cons_self a l2)
    | b :: m1 =>
      rw [List.cons_append, List.cons_append, List.cons.injEq] at h
      obtain ⟨hcb, hrest⟩ := h
      rw [List.cons_append, List.nodup_cons] at hnd
      obtain ⟨h1, h2⟩ := ih hrest hnd.2
      exact ⟨by rw [hcb, h1], h2⟩

/-- C10: when some key has at least two symbols, `find_most_common_pair`
returns a pair of maximum aggregate weighted count; among tied maximal pairs
it returns the one first encountered when scanning the keys in dictionary
insertion order, left to right within each key (everything encountered
strictly before its first occurrence weighs strictly less). -/
theorem C10_most_common_pair (tc : List (List String × ℕ))
    (h : ∃ kv ∈ tc, 2 ≤ kv.1.length) :
    ∃ p s1 s2, find_most_common_pair tc = some p ∧
      pair_stream tc = s1 ++ p :: s2 ∧ p ∉ s1 ∧
      (∀ q ∈ pair_stream tc, pair_weight tc q ≤ pair_weight tc p) ∧
      (∀ q ∈ s1, pair_weight tc q < pair_weight tc p) := by
  obtain ⟨kv, hkv, hlen⟩ := h
  have hsne : pair_stream tc ≠ [] := by
    match hk : kv.1, hlen with
    | c1 :: c2 :: rest, _ =>
      refine List.ne_nil_of_mem (a := (c1, c2)) ?_
      rw [pair_stream]
      refine List.mem_flatMap.mpr ⟨kv, hkv, ?_⟩
      rw [hk]
      exact List.mem_cons_self _ _
  have hS : pair_stream tc = (wstream tc).map Prod.fst := pair_stream_eq_map_fst tc
  have hbp : build_pairs tc = (firstOcc ((wstream tc).map Prod.fst)).map
      fun q => (q, stream_weight q (wstream tc)) := by
    rw [build_pairs_eq_fold, add_pair_fold_eq]
  have hbpne : build_pairs tc ≠ [] := by
    rw [hbp]
    obtain ⟨a, ha⟩ := List.exists_mem_of_ne_nil ((wstream tc).map Prod.fst)
      (by rw [← hS]; exact hsne)
    refine List.ne_nil_of_mem (a := (a, stream_weight a (wstream tc))) ?_
    exact List.mem_map.mpr ⟨a, (mem_firstOcc a _).mpr ha, rfl⟩
  obtain ⟨l1, x, l2, hps, hmax, hub, hstrict⟩ := python_max_spec _ hbpne
  have hxmem : x ∈ build_pairs tc := by
    rw [hps]
    exact List.mem_append_right _ (List.mem_cons_self x l2)
  rw [hbp] at hxmem
  obtain ⟨q0, hq0mem, hwq0⟩ := List.mem_map.mp hxmem
  have hq01 : q0 = x.1 := congrArg Prod.fst hwq0
  have hx2 : x.2 = stream_weight x.1 (wstream tc) := by
    rw [← hq01, ← hwq0]
  have hq0S : x.1 ∈ (wstream tc).map Prod.fst :=
    (mem_firstOcc x.1 _).mp (hq01 ▸ hq0mem)
  obtain ⟨s1, s2, hsplit, hnotmem⟩ := exists_first_split (by rw [hS]; exact hq0S :
    x.1 ∈ pair_stream tc)
  have hsplitS : (wstream tc).map Prod.fst = s1 ++ x.1 :: s2 := by
    rw [← hS]; exact hsplit
  obtain ⟨ext, hfo⟩ := @firstOcc_split x.1 s1 s2 hnotmem
  rw [← hsplitS] at hfo
  have hwx : (x.1, stream_weight x.1 (wstream tc)) = x := by
    rw [← hq01]
    exact hwq0
  have hmapsplit : (firstOcc ((wstream tc).map Prod.fst)).map
      (fun q => (q, stream_weight q (wstream tc))) =
      (firstOcc s1).map (fun q => (q, stream_weight q (wstream tc))) ++
        x :: ext.map (fun q => (q, stream_weight q (wstream tc))) := by
    rw [hfo, List.map_append, List.map_cons]
    simp only [hwx]
  have hnodup : ((firstOcc ((wstream tc).map Prod.fst)).map
      fun q => (q, stream_weight q (wstream tc))).Nodup := by
    refine List.Nodup.map ?_ (firstOcc_nodup _)
    intro a b hab
    exact congrArg Prod.fst hab
  have heq2 : l1 ++ x :: l2 = (firstOcc s1).map
      (fun q => (q, stream_weight q (wstream tc))) ++
        x :: ext.map (fun q => (q, stream_weight q (wstream tc))) := by
    rw [← hps, hbp]
    exact hmapsplit
  have hnodup2 : (l1 ++ x :: l2).Nodup := by
    rw [← hps, hbp]
    exact hnodup
  have hl1eq := (append_cons_inj_of_nodup heq2 hnodup2).1
  refine ⟨x.1, s1, s2, ?_, hsplit, hnotmem, ?_, ?_⟩
  · rw [find_most_common_pair, hmax]
  · intro q hq
    rw [hS] at hq
    have hqbp : (q, stream_weight q (wstream tc)) ∈ build_pairs tc := by
      rw [hbp]
      exact List.mem_map.mpr ⟨q, (mem_firstOcc q _).mpr hq, rfl⟩
    have := hub _ hqbp
    rw [← stream_weight_wstream, ← stream_weight_wstream]
    rw [hx2] at this
    exact this
  · intro q hq
    have hqfo : q ∈ firstOcc s1 := (mem_firstOcc q s1).mpr hq
    have hql1 : (q, stream_weight q (wstream tc)) ∈ l1 := by
      rw [hl1eq]
      exact List.mem_map.mpr ⟨q, hqfo, rfl⟩
    have := hstrict _ hql1
    rw [← stream_weight_wstream, ← stream_weight_wstream]
    rw [hx2] at this
    exact this

/-- Witness for C10 on the one-word corpus `ab`: the selected pair is
`("a", "b")`, the first of the two equally weighted pairs in scan order. -/
theorem C10_witness :
    find_most_common_pair [(["a", "b", "</W>"], 1)] = some ("a", "b") ∧
      (∃ p s1 s2,
        find_most_common_pair [(["a", "b", "</W>"], 1)] = some p ∧
        pair_stream [(["a", "b", "</W>"], 1)] = s1 ++ p :: s2 ∧ p ∉ s1 ∧
        (∀ q ∈ pair_stream [(["a", "b", "</W>"], 1)],
          pair_weight [(["a", "b", "</W>"], 1)] q ≤
            pair_weight [(["a", "b", "</W>"], 1)] p) ∧
        (∀ q ∈ s1, pair_weight [(["a", "b", "</W>"], 1)] q <
          pair_weight [(["a", "b", "</W>"], 1)] p)) :=
  ⟨by decide, C10_most_common_pair [(["a", "b", "</W>"], 1)]
    ⟨(["a", "b", "</W>"], 1), List.mem_singleton_self _, by decide⟩⟩

end NlpVerify
